import Mathlib

/-!
Shallow embedding of the pynigma Enigma-machine simulator (src/pynigma.py).

Characters are modelled as Unicode/ASCII code points (`Nat`); Python strings
become `List Nat`.  The `deque`-based rotating alphabet of `Rotor` becomes a
`List Nat` together with an explicit left-rotation function `rotL` that has
the same semantics as `deque.rotate(-n)` (rotation amount taken modulo the
length).  The unnormalised integer `_position` counter of the source is kept
as an unnormalised `Nat` (it never becomes negative in the source: it starts
at `ord(position.upper()) - 65 ∈ [0, 25]` and only nonnegative amounts are
ever added).
-/

/-- Python `str.upper()` restricted to ASCII code points: lowercase Latin
letters are mapped to uppercase, everything else is unchanged. -/
def pyUpper (c : Nat) : Nat := if 97 ≤ c ∧ c ≤ 122 then c - 32 else c

/-- Membership in Python's `string.ascii_letters` (`A`-`Z` or `a`-`z`). -/
def isLetter (c : Nat) : Bool :=
  (decide (65 ≤ c) && decide (c ≤ 90)) || (decide (97 ≤ c) && decide (c ≤ 122))

/-- Convert a Lean string literal to its list of code points (used only to
write the 26-letter wiring constants of the catalogs readably). -/
def codes (s : String) : List Nat := s.data.map Char.toNat

/-- rotL xs n rotates the list `n` places to the left: the semantics of
Python's `deque.rotate(-n)` for `n ≥ 0` (rotation is modulo the length). -/
def rotL (xs : List Nat) (n : Nat) : List Nat :=
  xs.drop (n % xs.length) ++ xs.take (n % xs.length)

/-- rotR xs n rotates the list `n` places to the right: the semantics of
Python's `deque.rotate(n)` for `n ≥ 0`, expressed as a left rotation. -/
def rotR (xs : List Nat) (n : Nat) : List Nat :=
  rotL xs (xs.length - n % xs.length)

/-- First `while` loop of `Rotor._wrapOrd` (`while position < 0: position += 25`),
written with an explicit fuel so that the kernel can evaluate it; the fuel
`(-p).toNat` provably never runs out, see `wrapNeg_eq` below, which recovers
the exact loop equation. -/
def wrapNegGo : Nat → Int → Int
  | 0, p => p
  | n + 1, p => if p < 0 then wrapNegGo n (p + 25) else p

def wrapNeg (p : Int) : Int := wrapNegGo (-p).toNat p

/-- Second `while` loop of `Rotor._wrapOrd` (`while position > 25: position -= 25`),
with fuel `p.toNat`; `wrapPos_eq` below recovers the exact loop equation. -/
def wrapPosGo : Nat → Int → Int
  | 0, p => p
  | n + 1, p => if 25 < p then wrapPosGo n (p - 25) else p

def wrapPos (p : Int) : Int := wrapPosGo p.toNat p

/-- Rotor._wrapOrd: both `while` loops in source order.  Note that the
source adjusts by 25, not 26, so this is *not* reduction modulo 26. -/
def wrapOrd (p : Int) : Int := wrapPos (wrapNeg p)

/-- State of `Rotor`: the (mutated, rotated) `deque` `_alphabet`, the raw
`_position` counter, the `_notch` list (`ord(n.upper()) - 65` values, kept as
`Int` because the source compares them with `_wrapOrd` results), and the
`_stepped` flag. -/
structure Rotor where
  alpha : List Nat
  pos : Nat
  notch : List Int
  stepped : Bool
deriving DecidableEq, Repr, Inhabited

/-- The placeholder rotor used as the default of out-of-range list reads
(the source would raise instead; all claims stay in range). -/
def dRot : Rotor := ⟨[], 0, [], false⟩

/-- Rotor.left: `pos = ord(letter.upper()) - 65; return self._alphabet[pos]`. -/
def Rotor.left (r : Rotor) (c : Nat) : Nat := r.alpha.getD (pyUpper c - 65) 0

/-- Rotor.right: `pos = self._alphabet.index(letter); return chr(pos + 65)`. -/
def Rotor.right (r : Rotor) (c : Nat) : Nat := r.alpha.indexOf c + 65

/-- Rotor.step: `self._position += steps; self._alphabet.rotate(-steps);
self._stepped = True`. -/
def Rotor.step (r : Rotor) (steps : Nat) : Rotor :=
  { r with alpha := rotL r.alpha steps, pos := r.pos + steps, stepped := true }

/-- Rotor.resetStep: `self._stepped = False`. -/
def Rotor.resetStep (r : Rotor) : Rotor := { r with stepped := false }

/-- Rotor.hit_notch: `self._wrapOrd(self._position - 1) in self._notch and
self._stepped`. -/
def Rotor.hit_notch (r : Rotor) : Bool :=
  r.notch.contains (wrapOrd ((r.pos : Int) - 1)) && r.stepped

/-- Rotor.in_notch: `self._wrapOrd(self._position) in self._notch and not
self._stepped`. -/
def Rotor.in_notch (r : Rotor) : Bool :=
  r.notch.contains (wrapOrd ((r.pos : Int))) && !r.stepped

/-- The `position` property getter of `Rotor` (pynigma version):
`chr(self._position % 26 + 65)`. -/
def Rotor.positionChar (r : Rotor) : Nat := r.pos % 26 + 65

/-- The `position` property setter of `Rotor`:
`self._alphabet.rotate(self._position); self._position = ord(position.upper()) - 65;
self._alphabet.rotate(-self._position)`.  The `_stepped` flag is not touched. -/
def Rotor.setPosition (r : Rotor) (position : Nat) : Rotor :=
  let a := rotR r.alpha r.pos
  let np := pyUpper position - 65
  { r with alpha := rotL a np, pos := np }

/-- Rotor.__init__ for arguments that pass its validation: the alphabet is
uppercased into the deque, `_notch` and `_position` are converted from letters,
then `self.step(self._position)` is executed (which rotates the deque *and*
adds `_position` to itself again), and finally `_stepped` is cleared.
`alphabet`/`notch`/`position` are given as code points, as in the source. -/
def Rotor.make (alphabet : List Nat) (notch : List Nat) (position : Nat) : Rotor :=
  let r0 : Rotor :=
    { alpha := alphabet.map pyUpper
      pos := pyUpper position - 65
      notch := notch.map (fun n => ((pyUpper n - 65 : Nat) : Int))
      stepped := false }
  let r1 := r0.step r0.pos
  { r1 with stepped := false }

/-- Validation in `Rotor.__init__` / `Stator.__init__` for the alphabet:
`len(alphabet) == 26` and every uppercase letter occurs in `alphabet.upper()`. -/
def alphaCheck (alphabet : List Nat) : Bool :=
  decide (alphabet.length = 26) &&
    (List.range' 65 26).all (fun L => (alphabet.map pyUpper).contains L)

/-- State of `Stator` (ETW / UKW): only the un-rotated `_alphabet` deque
(`Stator.__init__` stores the alphabet *without* uppercasing it and never
sets a position). -/
structure Stator where
  alpha : List Nat
deriving DecidableEq, Repr, Inhabited

/-- Stator.left (inherited `Rotor.left`). -/
def Stator.left (s : Stator) (c : Nat) : Nat := s.alpha.getD (pyUpper c - 65) 0

/-- Stator.right (inherited `Rotor.right`). -/
def Stator.right (s : Stator) (c : Nat) : Nat := s.alpha.indexOf c + 65

/-- Stator.__init__: checks the alphabet (`ValueError` otherwise), stores it
as-is, then checks `right(left(a)) == a` for every `a` of the alphabet
(`ValueError` otherwise).  `none` models the raised `ValueError`. -/
def Stator.init (alphabet : List Nat) : Option Stator :=
  if alphaCheck alphabet then
    let s : Stator := ⟨alphabet⟩
    if alphabet.all (fun a => s.right (s.left a) = a) then some s else none
  else none

/-- State of the `Enigma` machine: the rotor bank, optional ETW and UKW, the
plugboard pair list, and whether the `_etw_map` / `_ukw_map` catalogs are
non-empty (which decides the guards in `encode`). -/
structure Enigma where
  rotors : List Rotor
  etw : Option Stator
  ukw : Option Stator
  plugboard : List (Nat × Nat)
  ukwAvail : Bool
  etwAvail : Bool
deriving DecidableEq, Repr

/-- Enigma.setRotorsPositions for a position string of the right length
whose characters are all letters (the validated case; the source raises
`ValueError` otherwise). -/
def Enigma.setRotorsPositions (m : Enigma) (pos : List Nat) : Enigma :=
  { m with rotors := List.zipWith Rotor.setPosition m.rotors pos }

/-- Decidable equality for `Except` values (for concrete evaluations). -/
instance {ε α : Type} [DecidableEq ε] [DecidableEq α] : DecidableEq (Except ε α) :=
  fun a b =>
    match a, b with
    | .error x, .error y =>
      if h : x = y then .isTrue (h ▸ rfl) else .isFalse (fun hc => h (by cases hc; rfl))
    | .ok x, .ok y =>
      if h : x = y then .isTrue (h ▸ rfl) else .isFalse (fun hc => h (by cases hc; rfl))
    | .error _, .ok _ => .isFalse (fun hc => by cases hc)
    | .ok _, .error _ => .isFalse (fun hc => by cases hc)

/-- Errors raised by `Enigma.setPlugboard`. -/
inductive PlugError where
  | tooManyPlugs   -- "Max 10 plugs are allowed"
  | invalidPlug    -- "Invalid plugs combinations"
deriving DecidableEq, Repr

/-- Enigma.setPlugboard: more than 10 plugs raise, any plug whose length is
not exactly 2 raises, otherwise the pair list `[(x[0], x[1]) for x in plugs]`
is stored. -/
def setPlugboard (plugs : List (List Nat)) : Except PlugError (List (Nat × Nat)) :=
  if 10 < plugs.length then .error .tooManyPlugs
  else if plugs.any (fun p => p.length ≠ 2) then .error .invalidPlug
  else .ok (plugs.map (fun p => (p.getD 0 0, p.getD 1 0)))

/-- Enigma._applyPlugboard's scanning loop over the pair list (the
`if not self._plugboard: return c` short-circuit returns `c`, which is also
what the empty scan returns). -/
def applyPlugboard : List (Nat × Nat) → Nat → Nat
  | [], c => c
  | (a, b) :: rest, c => if c = a then b else if c = b then a else applyPlugboard rest c

/-- The right-to-left pass of `_signalTravel`:
`for r in self._rotors[::-1]: c = r.left(c)` — the *rightmost* rotor is
applied first, which `foldr` does directly. -/
def travelLeft (rs : List Rotor) (c : Nat) : Nat := rs.foldr (fun r a => r.left a) c

/-- The left-to-right pass of `_signalTravel`:
`for r in self._rotors: c = r.right(c)`. -/
def travelRight (rs : List Rotor) (c : Nat) : Nat := rs.foldl (fun a r => r.right a) c

/-- Enigma._signalTravel: ETW forward, rotors right-to-left, UKW, rotors
left-to-right, ETW backward, each applied only when present. -/
def Enigma.signalTravel (m : Enigma) (c : Nat) : Nat :=
  let c := match m.etw with | some e => e.left c | none => c
  let c := travelLeft m.rotors c
  let c := match m.ukw with | some u => u.left c | none => c
  let c := travelRight m.rotors c
  match m.etw with | some e => e.right c | none => c

/-- The `for r in self._rotors: r.resetStep()` loop of `encode`. -/
def resetAll (rs : List Rotor) : List Rotor := rs.map Rotor.resetStep

/-- The `self._rotors[-1].step()` line of `encode` (`step` by the default 1). -/
def stepLast (rs : List Rotor) : List Rotor :=
  rs.set (rs.length - 1) ((rs.getD (rs.length - 1) dRot).step 1)

/-- One iteration of the `for x in range(len(self._rotors) - 1, 0, -1)` loop
of `Enigma._computeRotations`: the `hit_notch` branch steps rotor `x - 1`,
then the `in_notch and x < len - 1` branch (read on the updated bank) steps
rotor `x` and rotor `x - 1`. -/
def crBody (rs : List Rotor) (x : Nat) : List Rotor :=
  let rs1 :=
    if (rs.getD x dRot).hit_notch then
      rs.set (x - 1) ((rs.getD (x - 1) dRot).step 1)
    else rs
  if (rs1.getD x dRot).in_notch && decide (x < rs1.length - 1) then
    let rs2 := rs1.set x ((rs1.getD x dRot).step 1)
    rs2.set (x - 1) ((rs2.getD (x - 1) dRot).step 1)
  else rs1

/-- The loop of `Enigma._computeRotations`, iterating `x` from its first
argument down to 1 (index 0 is never visited, as in `range(len - 1, 0, -1)`). -/
def crLoop (rs : List Rotor) : Nat → List Rotor
  | 0 => rs
  | x + 1 => crLoop (crBody rs (x + 1)) x

/-- Enigma._computeRotations. -/
def computeRotations (rs : List Rotor) : List Rotor := crLoop rs (rs.length - 1)

/-- The per-character body of `Enigma.encode` (with `format_output=False`):
non-letters are appended unchanged; for a letter the rotors are reset, the
last rotor steps, the plugboard / signal travel / plugboard chain runs on the
*post-`stepLast`* bank, and only then `_computeRotations` runs. -/
def Enigma.encodeChar (m : Enigma) (c : Nat) : Enigma × Nat :=
  if isLetter c then
    let m1 : Enigma := { m with rotors := stepLast (resetAll m.rotors) }
    let e := applyPlugboard m1.plugboard c
    let e := m1.signalTravel e
    let e := applyPlugboard m1.plugboard e
    ({ m1 with rotors := computeRotations m1.rotors }, e)
  else (m, c)

/-- The character loop of `Enigma.encode` (with `format_output=False`),
threading the machine state and collecting the output characters. -/
def Enigma.encodeChars (m : Enigma) : List Nat → Enigma × List Nat
  | [] => (m, [])
  | c :: cs =>
    let p := m.encodeChar c
    let q := p.fst.encodeChars cs
    (q.fst, p.snd :: q.snd)

/-- The guards at the top of `Enigma.encode`: rotors must be installed, and a
UKW (resp. ETW) must be set whenever the corresponding catalog is non-empty. -/
def Enigma.encodeOk (m : Enigma) : Bool :=
  !m.rotors.isEmpty && (!m.ukwAvail || m.ukw.isSome) && (!m.etwAvail || m.etw.isSome)

/-- Enigma.encode with `format_output=False`: `none` models the raised
exception when a guard fails. -/
def Enigma.encode (m : Enigma) (clean : List Nat) : Option (Enigma × List Nat) :=
  if m.encodeOk then some (m.encodeChars clean) else none

/-- The `rotors_position` property: `"".join(r.position for r in self._rotors)`. -/
def Enigma.rotorsPosition (m : Enigma) : List Nat := m.rotors.map Rotor.positionChar

/-! ### Catalog wirings used by the claims (src/pynigma.py defaults and
src/enigmafactory.py presets) -/

def alphaI : List Nat := codes "EKMFLGDQVZNTOWYHXUSPAIBRCJ"
def alphaII : List Nat := codes "AJDKSIRUXBLHWTMCQGZNPYFVOE"
def alphaIII : List Nat := codes "BDFHJLCPRTXVZNYEIWGAKMUSQO"
def alphaUKWB : List Nat := codes "YRUHQSLDPXNGOKMIEBFZCWVJAT"
def alphaETW : List Nat := codes "ABCDEFGHIJKLMNOPQRSTUVWXYZ"
def alphaIC : List Nat := codes "DMTWSILRUYQNKFEJCAZBPGXOHV"

/-! ### Validity predicates (all decidable, so witnesses can use `decide`)

`ValidAlpha` is the property of a stored rotor/stator alphabet established by
the source's construction-time validation for uppercase inputs: 26 entries
containing every uppercase letter code (and hence, by counting, a permutation
of `65..90`). -/

/-- The uppercase letter codes `[65, …, 90]`. -/
def upperChars : List Nat := List.range' 65 26

/-- A stored alphabet is a permutation of the uppercase letter codes,
expressed through the two facts the source validation checks: length 26 and
every uppercase letter present. -/
def ValidAlpha (a : List Nat) : Prop :=
  a.length = 26 ∧ ∀ i : Fin 26, (65 + i.val) ∈ a

instance (a : List Nat) : Decidable (ValidAlpha a) := by
  unfold ValidAlpha; infer_instance

/-- A letter code is an uppercase Latin letter. -/
def IsUp (c : Nat) : Prop := 65 ≤ c ∧ c ≤ 90

instance (c : Nat) : Decidable (IsUp c) := by unfold IsUp; infer_instance

/-- A stator's `left` transform is an involution on the uppercase letters
(what the spec calls reflector involution). -/
def StatorInvol (u : Stator) : Prop :=
  ∀ i : Fin 26, u.left (u.left (65 + i.val)) = 65 + i.val

instance (u : Stator) : Decidable (StatorInvol u) := by
  unfold StatorInvol; infer_instance

/-- Plugboard pairs are uppercase letters and no letter occurs twice across
the whole pair list (disjoint pairs). -/
def PBGood (pb : List (Nat × Nat)) : Prop :=
  (pb.flatMap fun p => [p.1, p.2]).Nodup ∧
    ∀ p ∈ pb, IsUp p.1 ∧ IsUp p.2

instance (pb : List (Nat × Nat)) : Decidable (PBGood pb) := by
  unfold PBGood; infer_instance

/-- Validity of an optional ETW: when present, its alphabet is an uppercase
permutation. -/
def OptEtwValid : Option Stator → Prop
  | none => True
  | some s => ValidAlpha s.alpha

instance : (o : Option Stator) → Decidable (OptEtwValid o)
  | none => isTrue trivial
  | some s => inferInstanceAs (Decidable (ValidAlpha s.alpha))

/-- Validity of an optional UKW: when present, an uppercase permutation whose
`left` is an involution on the uppercase letters. -/
def OptUkwValid : Option Stator → Prop
  | none => True
  | some s => ValidAlpha s.alpha ∧ StatorInvol s

instance : (o : Option Stator) → Decidable (OptUkwValid o)
  | none => isTrue trivial
  | some s => inferInstanceAs (Decidable (ValidAlpha s.alpha ∧ StatorInvol s))

/-- A machine whose components are all valid: every rotor alphabet an
uppercase permutation, ETW valid if present, UKW valid and involutive if
present, plugboard pairs uppercase and disjoint. -/
def EnigmaValid (m : Enigma) : Prop :=
  (∀ r ∈ m.rotors, ValidAlpha r.alpha) ∧ OptEtwValid m.etw ∧
    OptUkwValid m.ukw ∧ PBGood m.plugboard

instance (m : Enigma) : Decidable (EnigmaValid m) := by
  unfold EnigmaValid; infer_instance

/-! ### Spec-order per-character encoding (for claim C3)

`Enigma.specOrderEncodeChar` follows the spec's §4.6/§4.5 wording for a
letter character: "run the stepping transition (§4.5)" — the unconditional
step of the rightmost rotor *and* all notch-driven propagation — and only
then use "the resulting offsets … for this character's signal traversal".
It exists to be compared with `Enigma.encodeChar`, which is the translation
of the source. -/
def Enigma.specOrderEncodeChar (m : Enigma) (c : Nat) : Enigma × Nat :=
  if isLetter c then
    let m1 : Enigma := { m with rotors := computeRotations (stepLast (resetAll m.rotors)) }
    let e := applyPlugboard m1.plugboard c
    let e := m1.signalTravel e
    let e := applyPlugboard m1.plugboard e
    (m1, e)
  else (m, c)

/-! ### Concrete machines used by individual claims -/

/-- Rotor "I" installed with starting position "A". -/
def rotI : Rotor := Rotor.make alphaI (codes "Q") 65

/-- Rotor "II" installed with starting position "A". -/
def rotII : Rotor := Rotor.make alphaII (codes "E") 65

/-- Rotor "III" installed with starting position "A". -/
def rotIII : Rotor := Rotor.make alphaIII (codes "V") 65

/-- The default UKW-B reflector. -/
def ukwB : Stator := ⟨alphaUKWB⟩

/-- The default identity ETW. -/
def etwId : Stator := ⟨alphaETW⟩

/-- An M3-style machine: rotors "I", "II", "III" (each added at position "A"),
UKW-B, the identity ETW, no plugboard; both catalogs non-empty as in the
pynigma defaults. -/
def machM3 : Enigma :=
  { rotors := [rotI, rotII, rotIII], etw := some etwId, ukw := some ukwB,
    plugboard := [], ukwAvail := true, etwAvail := true }

/-- machM3 with rotor positions set to "ADT" (the double-step scenario). -/
def machADT : Enigma := machM3.setRotorsPositions (codes "ADT")

/-- machM3 with rotor positions set to "QAA": the leftmost rotor "I" sits
at its own notch Q while nothing steps it. -/
def machQAA : Enigma := machM3.setRotorsPositions (codes "QAA")

/-- machM3 with rotor positions set to "ADV": the rightmost rotor is about
to cross its notch, so the middle rotor is due to advance in the same
keypress. -/
def machADV : Enigma := machM3.setRotorsPositions (codes "ADV")

/-- machM3 with the single plugboard pair ("A", "B") and positions "AAA". -/
def machPlugAB : Enigma :=
  ({ machM3 with plugboard := [(65, 66)] }).setRotorsPositions (codes "AAA")

/-- A 26-letter permutation that is *not* an involution: "BCADEF…Z" maps
A→B→C→A, a 3-cycle. -/
def cyc3 : List Nat := codes "BCADEFGHIJKLMNOPQRSTUVWXYZ"

/-- A machine built through the public constructor interface with a custom
one-entry `ukw_map` whose wiring is the non-involutive `cyc3`, an empty
`etw_map`, rotor "I" installed at "A", positions set to "A". -/
def machCyc3 : Enigma :=
  ({ rotors := [rotI], etw := none, ukw := some ⟨cyc3⟩, plugboard := [],
     ukwAvail := true, etwAvail := false } : Enigma).setRotorsPositions (codes "A")

/-- Rotor "IC" of the factory's "Commercial" preset, installed at "A". -/
def rotIC : Rotor := Rotor.make alphaIC (codes "Z") 65

/-- A "Commercial"-preset machine: one rotor, both the reflector and
entry-wheel catalogs empty (so neither is set), empty plugboard. -/
def machCommercial : Enigma :=
  ({ rotors := [rotIC], etw := none, ukw := none, plugboard := [],
     ukwAvail := false, etwAvail := false } : Enigma).setRotorsPositions (codes "G")

/-- Iterated single steps of a rotor (`r.step()` performed `n` times). -/
def stepIter (r : Rotor) : Nat → Rotor
  | 0 => r
  | n + 1 => (stepIter r n).step 1

/-- The flag-insensitive core of a rotor state: deque, position counter and
notch list (everything except `_stepped`). -/
def rotorCore (r : Rotor) : List Nat × Nat × List Int := (r.alpha, r.pos, r.notch)

/-- StepsOnly rs rs' says the bank `rs'` is obtained from `rs` by giving
each rotor some number of single steps (rotating its deque and advancing its
counter in lockstep) and arbitrary `_stepped` flags — the only way the encode
loop ever touches rotors. -/
def StepsOnly (rs rs' : List Rotor) : Prop :=
  rs'.length = rs.length ∧
  ∀ i, i < rs.length → ∃ k b, rs'.getD i dRot =
    { alpha := rotL (rs.getD i dRot).alpha k, pos := (rs.getD i dRot).pos + k,
      notch := (rs.getD i dRot).notch, stepped := b }

/-! ### The fuel implementation of `_wrapOrd` satisfies the loop equations -/

theorem wrapNegGo_of_nonneg (n : Nat) (p : Int) (h : 0 ≤ p) : wrapNegGo n p = p := by
  cases n with
  | zero => rfl
  | succ n => unfold wrapNegGo; rw [if_neg (by omega)]

theorem wrapNegGo_congr (n : Nat) : ∀ (m : Nat) (p : Int),
    -p ≤ (n : Int) → -p ≤ (m : Int) → wrapNegGo n p = wrapNegGo m p := by
  induction n with
  | zero =>
    intro m p h1 _
    rw [wrapNegGo_of_nonneg _ _ (by omega), wrapNegGo_of_nonneg _ _ (by omega)]
  | succ n ih =>
    intro m p h1 h2
    by_cases hp : p < 0
    · cases m with
      | zero => exact absurd h2 (by omega)
      | succ m =>
        show wrapNegGo (n + 1) p = wrapNegGo (m + 1) p
        unfold wrapNegGo
        rw [if_pos hp, if_pos hp]
        exact ih m (p + 25) (by omega) (by omega)
    · rw [wrapNegGo_of_nonneg _ _ (by omega), wrapNegGo_of_nonneg _ _ (by omega)]

/-- wrapNeg satisfies exactly the equation of the source's first `while`
loop, certifying that the fuel never runs out. -/
theorem wrapNeg_eq (p : Int) : wrapNeg p = if p < 0 then wrapNeg (p + 25) else p := by
  by_cases hp : p < 0
  · rw [if_pos hp]
    show wrapNegGo (-p).toNat p = wrapNeg (p + 25)
    have h1 : (-p).toNat = ((-p).toNat - 1) + 1 := by omega
    rw [h1]
    unfold wrapNegGo
    rw [if_pos hp]
    exact wrapNegGo_congr _ _ _ (by omega) (by omega)
  · rw [if_neg hp]
    exact wrapNegGo_of_nonneg _ _ (by omega)

theorem wrapPosGo_of_le (n : Nat) (p : Int) (h : p ≤ 25) : wrapPosGo n p = p := by
  cases n with
  | zero => rfl
  | succ n => unfold wrapPosGo; rw [if_neg (by omega)]

theorem wrapPosGo_congr (n : Nat) : ∀ (m : Nat) (p : Int),
    p ≤ (n : Int) → p ≤ (m : Int) → wrapPosGo n p = wrapPosGo m p := by
  induction n with
  | zero =>
    intro m p h1 _
    rw [wrapPosGo_of_le _ _ (by omega), wrapPosGo_of_le _ _ (by omega)]
  | succ n ih =>
    intro m p h1 h2
    by_cases hp : 25 < p
    · cases m with
      | zero => exact absurd h2 (by omega)
      | succ m =>
        show wrapPosGo (n + 1) p = wrapPosGo (m + 1) p
        unfold wrapPosGo
        rw [if_pos hp, if_pos hp]
        exact ih m (p - 25) (by omega) (by omega)
    · rw [wrapPosGo_of_le _ _ (by omega), wrapPosGo_of_le _ _ (by omega)]

/-- wrapPos satisfies exactly the equation of the source's second `while`
loop. -/
theorem wrapPos_eq (p : Int) : wrapPos p = if 25 < p then wrapPos (p - 25) else p := by
  by_cases hp : 25 < p
  · rw [if_pos hp]
    show wrapPosGo p.toNat p = wrapPos (p - 25)
    have h1 : p.toNat = (p.toNat - 1) + 1 := by omega
    rw [h1]
    unfold wrapPosGo
    rw [if_pos hp]
    exact wrapPosGo_congr _ _ _ (by omega) (by omega)
  · rw [if_neg hp]
    exact wrapPosGo_of_le _ _ (by omega)

/-- Closed form of the source's `_wrapOrd` second loop on nonnegative inputs:
it is *not* reduction mod 26 — values above 25 land on `(p - 26) % 25 + 1`. -/
theorem wrapPos_ofNat (p : Nat) :
    wrapPos (p : Int) = if p ≤ 25 then (p : Int) else (((p - 26) % 25 + 1 : Nat) : Int) := by
  induction p using Nat.strong_induction_on with
  | _ p ih =>
    by_cases h : p ≤ 25
    · rw [if_pos h, wrapPos_eq, if_neg (by omega)]
    · rw [if_neg h, wrapPos_eq, if_pos (by omega)]
      have hc : (p : Int) - 25 = ((p - 25 : Nat) : Int) := by omega
      rw [hc, ih (p - 25) (by omega)]
      by_cases h2 : p - 25 ≤ 25
      · rw [if_pos h2]; omega
      · rw [if_neg h2]; omega

/-- Closed form of `_wrapOrd` on nonnegative inputs. -/
theorem wrapOrd_ofNat (p : Nat) :
    wrapOrd (p : Int) = if p ≤ 25 then (p : Int) else (((p - 26) % 25 + 1 : Nat) : Int) := by
  unfold wrapOrd wrapNeg
  rw [wrapNegGo_of_nonneg _ _ (by omega)]
  exact wrapPos_ofNat p

/-! ### Small list helpers -/

theorem getD_set_self {α : Type} (l : List α) (i : Nat) (a d : α) (h : i < l.length) :
    (l.set i a).getD i d = a := by
  rw [List.getD_eq_getElem?_getD, List.getElem?_set_self', List.getElem?_eq_getElem h]
  rfl

theorem getD_set_ne {α : Type} (l : List α) {i j : Nat} (a d : α) (h : i ≠ j) :
    (l.set i a).getD j d = l.getD j d := by
  rw [List.getD_eq_getElem?_getD, List.getElem?_set_ne h, ← List.getD_eq_getElem?_getD]

theorem getD_map_core (f : Rotor → Rotor) (l : List Rotor) (i : Nat) (d : Rotor)
    (hd : f d = d) : (l.map f).getD i d = f (l.getD i d) := by
  rw [List.getD_eq_getElem?_getD, List.getElem?_map, List.getD_eq_getElem?_getD]
  cases l[i]? with
  | none => simpa using hd.symm
  | some a => rfl

/-! ### Claim C4 — the concrete double-stepping scenario -/

/-- C4: on a machine with rotors "I", "II", "III" (notches Q, E, V) at
positions "ADT", encoding the letter "A" five times in sequence produces the
rotor-position strings "ADU", "ADV", "AEW", "BFX", "BFY", and the machine
passes the `encode` guards. -/
theorem C4_double_step_positions :
    machADT.encodeOk = true ∧
    (machADT.encodeChar 65).fst.rotorsPosition = codes "ADU" ∧
    ((machADT.encodeChar 65).fst.encodeChar 65).fst.rotorsPosition = codes "ADV" ∧
    (((machADT.encodeChar 65).fst.encodeChar 65).fst.encodeChar 65).fst.rotorsPosition
      = codes "AEW" ∧
    ((((machADT.encodeChar 65).fst.encodeChar 65).fst.encodeChar 65).fst.encodeChar
      65).fst.rotorsPosition = codes "BFX" ∧
    (((((machADT.encodeChar 65).fst.encodeChar 65).fst.encodeChar 65).fst.encodeChar
      65).fst.encodeChar 65).fst.rotorsPosition = codes "BFY" := by decide

/-! ### Claim C6 — the constructor doubles the position offset -/

/-- C6 (bug evaluation): adding rotor "I" with starting position "B" leaves
`_position` at 2 rather than 1, because `Rotor.__init__` runs
`self.step(self._position)` after `_position` is already set, so `step` adds
the offset to itself; the machine consequently reports position "C". -/
theorem C6_constructor_offset_bug :
    (Rotor.make alphaI (codes "Q") 66).pos = 2 ∧
    (Rotor.make alphaI (codes "Q") 66).positionChar = 67 ∧
    ({ machM3 with rotors := [Rotor.make alphaI (codes "Q") 66] } : Enigma).rotorsPosition
      = codes "C" := by decide

/-! ### Claim C7 — offsets are not normalised and `_wrapOrd` is not mod 26 -/

/-- C7 (counterexample): after 26 single steps from position "A" the offset
of rotor "I" is 26, outside `[0, 25]`; and with the offset before the latest
step at letter Q on the first revolution (17 steps) `hit_notch` fires, while
at the same letter position on the second revolution (43 steps) it does not
— notch detection does not fire at the same letter positions on every
revolution. -/
theorem C7_counterexample :
    (stepIter (rotI.setPosition 65) 26).pos = 26 ∧
    (stepIter (rotI.setPosition 65) 17).hit_notch = true ∧
    (stepIter (rotI.setPosition 65) 43).hit_notch = false ∧
    (stepIter (rotI.setPosition 65) 17).positionChar
      = (stepIter (rotI.setPosition 65) 43).positionChar := by decide

/-- C7 (amended): `step` adds to the raw `_position` counter without any
normalisation; the reported position letter reduces the counter mod 26; and
`_wrapOrd` (used by notch detection) is wrap-by-25, whose closed form on
nonnegative inputs is `(p - 26) % 25 + 1` for `p > 25` — in particular on the
second revolution (`26 ≤ p ≤ 50`) it returns `p - 25`, one more than
`p mod 26`, so notch detection is shifted on later revolutions. -/
theorem C7_amended :
    (∀ (r : Rotor) (n : Nat), (r.step n).pos = r.pos + n ∧
      (r.step n).positionChar = (r.pos + n) % 26 + 65) ∧
    (∀ p : Nat, wrapOrd (p : Int)
      = if p ≤ 25 then (p : Int) else (((p - 26) % 25 + 1 : Nat) : Int)) ∧
    (∀ p : Nat, 26 ≤ p → p ≤ 50 → wrapOrd (p : Int) = (p : Int) - 25 ∧
      (p : Int) % 26 = (p : Int) - 26) := by
  refine ⟨fun r n => ⟨rfl, rfl⟩, wrapOrd_ofNat, fun p h1 h2 => ⟨?_, by omega⟩⟩
  rw [wrapOrd_ofNat, if_neg (by omega)]
  omega

/-- Closed instantiation of `C7_amended`: `_wrapOrd 42 = 17` (letter position
42 mod 26 = 16, the notch letter Q of rotor "I", is reported as 17). -/
theorem C7_amended_witness :
    wrapOrd ((42 : Nat) : Int) = ((42 : Nat) : Int) - 25 :=
  (C7_amended.2.2 42 (by decide) (by decide)).1

/-! ### Claim C2 — the double-step rule -/

/-- C2 (counterexample): with rotors "I", "II", "III" at positions "QAA" the
leftmost rotor (index 0) sits at its notch Q, has not been stepped during the
keypress, and is not the rightmost rotor, yet one keypress leaves its offset
at 16: the double-step rule of `_computeRotations` never applies to index 0. -/
theorem C2_counterexample :
    ((stepLast (resetAll machQAA.rotors)).getD 0 dRot).in_notch = true ∧
    (machQAA.rotors.getD 0 dRot).pos = 16 ∧
    ((machQAA.encodeChar 65).fst.rotors.getD 0 dRot).pos = 16 ∧
    (machQAA.encodeChar 65).fst.rotorsPosition = codes "QAB" := by decide

/-- C2 (amended): during the scan of `_computeRotations`, the double-step
branch fires only at indices `x` with `1 ≤ x < N - 1`; when rotor `x` is at a
notch and unstepped it steps *itself* by 1 **and also steps rotor `x - 1`**;
and a bank in which no rotor at indices `1..n` is in a hit-notch or in-notch
state passes through the scan unchanged — in particular a leftmost rotor
sitting at its own notch is never stepped by the double-step rule. -/
theorem C2_amended :
    (∀ (rs : List Rotor) (x : Nat), 1 ≤ x → x < rs.length - 1 →
      (rs.getD x dRot).in_notch = true →
      ((crBody rs x).getD x dRot).pos = (rs.getD x dRot).pos + 1 ∧
      ((crBody rs x).getD (x - 1) dRot).pos = (rs.getD (x - 1) dRot).pos + 1 ∧
      ((crBody rs x).getD x dRot).stepped = true) ∧
    (∀ (rs : List Rotor) (n : Nat),
      (∀ x, 1 ≤ x → x ≤ n →
        (rs.getD x dRot).hit_notch = false ∧ (rs.getD x dRot).in_notch = false) →
      crLoop rs n = rs) := by
  constructor
  · intro rs x hx1 hx2 hin
    have hstep : (rs.getD x dRot).stepped = false := by
      have := hin
      unfold Rotor.in_notch at this
      rcases Bool.and_eq_true_iff.mp this with ⟨-, h2⟩
      simpa using h2
    have hhit : (rs.getD x dRot).hit_notch = false := by
      unfold Rotor.hit_notch
      rw [hstep, Bool.and_false]
    have hxlt : x < rs.length := by omega
    have hne : x ≠ x - 1 := by omega
    unfold crBody
    rw [hhit]
    simp only [if_false, Bool.false_eq_true]
    rw [hin]
    simp only [Bool.true_and, List.length_set]
    rw [if_pos (by simpa using hx2)]
    refine ⟨?_, ?_, ?_⟩
    · rw [getD_set_ne _ _ _ (Ne.symm hne), getD_set_self _ _ _ _ hxlt]
      rfl
    · rw [getD_set_self _ _ _ _ (by simpa using by omega : x - 1 < (rs.set x ((rs.getD x dRot).step 1)).length),
        getD_set_ne _ _ _ hne]
      rfl
    · rw [getD_set_ne _ _ _ (Ne.symm hne), getD_set_self _ _ _ _ hxlt]
      rfl
  · intro rs n
    induction n with
    | zero => intro _; rfl
    | succ n ih =>
      intro h
      show crLoop (crBody rs (n + 1)) n = rs
      have hb : crBody rs (n + 1) = rs := by
        unfold crBody
        rw [(h (n + 1) (by omega) (by omega)).1]
        simp only [if_false, Bool.false_eq_true]
        rw [(h (n + 1) (by omega) (by omega)).2]
        simp
      rw [hb]
      exact ih (fun x h1 h2 => h x h1 (by omega))

/-- Closed instantiation of `C2_amended`: with rotors "I", "II", "III" at
positions "AEA", the middle rotor (index 1, at its notch E, unstepped) is
stepped by the double-step branch and so is the leftmost rotor. -/
theorem C2_amended_witness :
    ((crBody (machM3.setRotorsPositions (codes "AEA")).rotors 1).getD 1 dRot).pos
      = ((machM3.setRotorsPositions (codes "AEA")).rotors.getD 1 dRot).pos + 1 ∧
    ((crBody (machM3.setRotorsPositions (codes "AEA")).rotors 1).getD 0 dRot).pos
      = ((machM3.setRotorsPositions (codes "AEA")).rotors.getD 0 dRot).pos + 1 ∧
    ((crBody (machM3.setRotorsPositions (codes "AEA")).rotors 1).getD 1 dRot).stepped
      = true :=
  C2_amended.1 (machM3.setRotorsPositions (codes "AEA")).rotors 1 (by decide)
    (by decide) (by decide)

/-! ### Claim C3 — ordering of stepping vs. signal traversal -/

/-- C3 (counterexample): at positions "ADV" (a keypress on which the middle
rotor is due to advance), the source's `encode` emits "Y" for input "A",
while the spec's order — complete the stepping transition, then traverse —
would emit "F": the notch-driven propagation of `_computeRotations` runs only
*after* the signal traversal. -/
theorem C3_counterexample :
    (machADV.encodeChar 65).snd = 89 ∧
    (machADV.specOrderEncodeChar 65).snd = 70 ∧
    (machADV.encodeChar 65).snd ≠ (machADV.specOrderEncodeChar 65).snd := by decide

/-- C3 (amended): for a letter character, `encode` steps the rightmost rotor
unconditionally first and uses those *pre-propagation* offsets for the
character's plugboard and signal traversal; the notch-driven propagation
(`_computeRotations`) is applied to the bank only after the traversal, so its
effect is seen by position read-outs and by the next character. -/
theorem C3_amended (m : Enigma) (c : Nat) (h : isLetter c = true) :
    (m.encodeChar c).snd =
      applyPlugboard m.plugboard
        (Enigma.signalTravel { m with rotors := stepLast (resetAll m.rotors) }
          (applyPlugboard m.plugboard c)) ∧
    (m.encodeChar c).fst =
      { m with rotors := computeRotations (stepLast (resetAll m.rotors)) } := by
  unfold Enigma.encodeChar
  rw [if_pos h]
  exact ⟨rfl, rfl⟩

/-- Closed instantiation of `C3_amended` at `machADV` and input "A". -/
theorem C3_amended_witness :
    (machADV.encodeChar 65).fst =
      { machADV with rotors := computeRotations (stepLast (resetAll machADV.rotors)) } :=
  (C3_amended machADV 65 (by decide)).2

/-! ### Claim C5 — reflector construction does not check involutivity -/

/-- C5 (counterexample): the 26-letter permutation "BCADEF…Z" (a 3-cycle on
A, B, C, hence not an involution: it sends A to B and B to C) is *accepted*
by `Stator.__init__`, although the claim says construction fails with
`InvalidReflector` for every non-involution. -/
theorem C5_counterexample :
    (Stator.init cyc3).isSome = true ∧
    Stator.left ⟨cyc3⟩ (Stator.left ⟨cyc3⟩ 65) = 67 := by decide

/-! ### Claim C9 — plugboard validation -/

/-- C9 (counterexample): `setPlugboard` accepts the pair "AA" (two identical
letters) and the pair "A1" (a non-letter character); the claim says both must
be rejected with `InvalidPlug`. -/
theorem C9_counterexample :
    setPlugboard [[65, 65]] = .ok [(65, 65)] ∧
    setPlugboard [[65, 49]] = .ok [(65, 49)] := by decide

/-- C9 (amended): `setPlugboard` fails with `TooManyPlugs` exactly when more
than 10 pairs are given; otherwise it fails with `InvalidPlug` exactly when
some pair does not have length 2 (neither distinctness nor letter-hood is
checked); otherwise it succeeds with the stored pair list. -/
theorem C9_amended (plugs : List (List Nat)) :
    (setPlugboard plugs = .error .tooManyPlugs ↔ 10 < plugs.length) ∧
    (setPlugboard plugs = .error .invalidPlug ↔
      plugs.length ≤ 10 ∧ ∃ p ∈ plugs, p.length ≠ 2) ∧
    (setPlugboard plugs = .ok (plugs.map (fun p => (p.getD 0 0, p.getD 1 0))) ↔
      plugs.length ≤ 10 ∧ ∀ p ∈ plugs, p.length = 2) := by
  unfold setPlugboard
  by_cases h1 : 10 < plugs.length
  · simp [h1]
  · by_cases h2 : plugs.any (fun p => p.length ≠ 2)
    · rw [if_neg h1, if_pos h2]
      rcases List.any_eq_true.mp h2 with ⟨p, hp, hp2⟩
      simp only [decide_eq_true_eq] at hp2
      constructor
      · constructor
        · intro h; cases h
        · intro h; omega
      constructor
      · constructor
        · intro _; exact ⟨by omega, p, hp, hp2⟩
        · intro _; rfl
      · constructor
        · intro h; cases h
        · rintro ⟨-, hall⟩; exact absurd (hall p hp) hp2
    · rw [if_neg h1, if_neg h2]
      have hall : ∀ p ∈ plugs, p.length = 2 := by
        intro p hp
        by_contra hc
        exact h2 (List.any_eq_true.mpr ⟨p, hp, by simpa using hc⟩)
      constructor
      · constructor
        · intro h; cases h
        · intro h; omega
      constructor
      · constructor
        · intro h; cases h
        · rintro ⟨-, p, hp, hp2⟩; exact absurd (hall p hp) hp2
      · constructor
        · intro _; exact ⟨by omega, hall⟩
        · intro _; rfl

/-! ### Claims C8 and C1 — counterexamples -/

/-- C8 (counterexample): on a machine with plugboard pair ("A", "B") at
positions "AAA", encoding "a" yields "D" while encoding its uppercasing "A"
yields "I": lowercase letters bypass the input-side plugboard swap, so
`encode(s) = encode(uppercase(s))` fails for machines with a non-empty
plugboard. -/
theorem C8_counterexample :
    (machPlugAB.encode [97]).map Prod.snd = some [68] ∧
    (machPlugAB.encode [65]).map Prod.snd = some [73] := by decide

/-- C1 (counterexample): (a) a machine built through the public interface
with a custom one-entry reflector catalog holding the non-involutive wiring
`cyc3` (rotor "I", positions "A") encodes "T" to "V", and re-encoding "V"
from the same positions gives "X", not "T"; (b) on a machine with plugboard
pair ("A", "B") at positions "AAA", encoding the lowercase plaintext "a"
gives "D", and re-encoding "D" from the same positions gives "B", not the
uppercased plaintext "A". -/
theorem C1_counterexample :
    ((machCyc3.encode [84]).map Prod.snd = some [86] ∧
      (((machCyc3.encodeChars [84]).fst.setRotorsPositions (codes "A")).encode
        [86]).map Prod.snd = some [88]) ∧
    ((machPlugAB.encode [97]).map Prod.snd = some [68] ∧
      (((machPlugAB.encodeChars [97]).fst.setRotorsPositions (codes "AAA")).encode
        [68]).map Prod.snd = some [66]) := by decide

/-! ### Rotation lemmas -/

theorem length_rotL (xs : List Nat) (n : Nat) : (rotL xs n).length = xs.length := by
  unfold rotL
  rcases Nat.eq_zero_or_pos xs.length with h | h
  · rw [List.length_eq_zero.mp h]; simp
  · have hm : n % xs.length < xs.length := Nat.mod_lt _ h
    rw [List.length_append, List.length_drop, List.length_take]
    omega

theorem rotL_zero (xs : List Nat) : rotL xs 0 = xs := by
  unfold rotL
  rw [Nat.zero_mod, List.drop_zero, List.take_zero, List.append_nil]

theorem perm_rotL (xs : List Nat) (n : Nat) : (rotL xs n).Perm xs := by
  unfold rotL
  exact List.perm_append_comm.trans (by rw [List.take_append_drop])

theorem rotL_eq_of_mod (xs : List Nat) {a b : Nat}
    (h : a % xs.length = b % xs.length) : rotL xs a = rotL xs b := by
  unfold rotL
  rw [h]

theorem getD_rotL (xs : List Nat) (n i d : Nat) (h : i < xs.length) :
    (rotL xs n).getD i d = xs.getD ((i + n % xs.length) % xs.length) d := by
  have hL : 0 < xs.length := by omega
  have hm : n % xs.length < xs.length := Nat.mod_lt _ hL
  rw [List.getD_eq_getElem?_getD, List.getD_eq_getElem?_getD]
  suffices hs : (rotL xs n)[i]? = xs[(i + n % xs.length) % xs.length]? by rw [hs]
  unfold rotL
  by_cases hc : i < xs.length - n % xs.length
  · rw [List.getElem?_append_left (by rw [List.length_drop]; exact hc),
      List.getElem?_drop]
    have hidx : (i + n % xs.length) % xs.length = n % xs.length + i := by
      rw [Nat.mod_eq_of_lt (by omega)]
      omega
    rw [hidx]
  · rw [List.getElem?_append_right (by rw [List.length_drop]; omega),
      List.length_drop, List.getElem?_take_of_lt (by omega)]
    have hidx : (i + n % xs.length) % xs.length = i - (xs.length - n % xs.length) := by
      rw [Nat.mod_eq_sub_mod (by omega), Nat.mod_eq_of_lt (by omega)]
      omega
    rw [hidx]

theorem getD_ext (xs ys : List Nat) (hl : xs.length = ys.length)
    (h : ∀ i, i < xs.length → xs.getD i 0 = ys.getD i 0) : xs = ys := by
  refine List.ext_getElem hl (fun i h1 h2 => ?_)
  have := h i h1
  rwa [List.getD_eq_getElem?_getD, List.getD_eq_getElem?_getD,
    List.getElem?_eq_getElem h1, List.getElem?_eq_getElem h2] at this

theorem rotL_rotL (xs : List Nat) (a b : Nat) :
    rotL (rotL xs a) b = rotL xs (a + b) := by
  rcases Nat.eq_zero_or_pos xs.length with h | hL
  · rw [List.length_eq_zero.mp h]; simp [rotL]
  · refine getD_ext _ _ (by rw [length_rotL, length_rotL, length_rotL]) ?_
    intro i hi
    rw [length_rotL, length_rotL] at hi
    rw [getD_rotL _ _ _ _ (by rw [length_rotL]; exact hi), length_rotL,
      getD_rotL _ _ _ _ (Nat.mod_lt _ hL), getD_rotL _ _ _ _ hi]
    congr 1
    have h1 : ((i + b % xs.length) % xs.length + a % xs.length) % xs.length
        = (i + b + a) % xs.length := by
      have e : i + b % xs.length + a % xs.length ≡ i + b + a [MOD xs.length] :=
        ((Nat.ModEq.refl i).add (Nat.mod_modEq b _)).add (Nat.mod_modEq a _)
      calc ((i + b % xs.length) % xs.length + a % xs.length) % xs.length
          = (i + b % xs.length + a % xs.length) % xs.length := by
            rw [Nat.mod_add_mod]
        _ = (i + b + a) % xs.length := e
    have h2 : (i + (a + b) % xs.length) % xs.length = (i + (a + b)) % xs.length :=
      (Nat.ModEq.refl i).add (Nat.mod_modEq (a + b) _)
    rw [h1, h2]
    congr 1
    omega

/-! ### `pyUpper` and letter facts -/

theorem pyUpper_of_up {c : Nat} (hc : IsUp c) : pyUpper c = c := by
  unfold IsUp at hc
  unfold pyUpper
  rw [if_neg (by omega)]

theorem pyUpper_idem (c : Nat) : pyUpper (pyUpper c) = pyUpper c := by
  unfold pyUpper
  by_cases h : 97 ≤ c ∧ c ≤ 122
  · rw [if_pos h, if_neg (by omega)]
  · rw [if_neg h, if_neg h]

theorem isUp_pyUpper_of_letter {c : Nat} (h : isLetter c = true) : IsUp (pyUpper c) := by
  unfold isLetter at h
  unfold pyUpper IsUp
  rcases Bool.or_eq_true_iff.mp h with h' | h' <;>
    rcases Bool.and_eq_true_iff.mp h' with ⟨h1, h2⟩ <;>
    rw [decide_eq_true_iff] at h1 h2
  · rw [if_neg (by omega)]; omega
  · rw [if_pos (by omega)]; omega

theorem isLetter_of_up {c : Nat} (hc : IsUp c) : isLetter c = true := by
  unfold IsUp at hc
  unfold isLetter
  rw [Bool.or_eq_true_iff, Bool.and_eq_true_iff]
  left
  exact ⟨decide_eq_true (by omega), decide_eq_true (by omega)⟩

theorem isLetter_pyUpper (c : Nat) : isLetter (pyUpper c) = isLetter c := by
  unfold pyUpper isLetter
  by_cases h : 97 ≤ c ∧ c ≤ 122
  · rw [if_pos h]
    have h65 : decide (65 ≤ c - 32) = true := decide_eq_true (by omega)
    have h90 : decide (c - 32 ≤ 90) = true := decide_eq_true (by omega)
    have h97 : decide (97 ≤ c) = true := decide_eq_true (by omega)
    have h122 : decide (c ≤ 122) = true := decide_eq_true (by omega)
    rw [h65, h90, h97, h122]
    simp
  · rw [if_neg h]

theorem pyUpper_of_not_letter {c : Nat} (h : isLetter c = false) : pyUpper c = c := by
  unfold isLetter at h
  unfold pyUpper
  rw [if_neg]
  intro hc
  have hx : (decide (97 ≤ c) && decide (c ≤ 122)) = true :=
    Bool.and_eq_true_iff.mpr ⟨decide_eq_true hc.1, decide_eq_true hc.2⟩
  rw [Bool.or_eq_false_iff] at h
  rw [h.2] at hx
  cases hx

/-! ### `ValidAlpha` is exactly "permutation of the uppercase letters" -/

theorem validAlpha_perm {a : List Nat} (h : ValidAlpha a) : a.Perm upperChars := by
  have hsub : upperChars ⊆ a := by
    intro x hx
    have hx' := List.mem_range'_1.mp hx
    have hlt : x - 65 < 26 := by omega
    have := h.2 ⟨x - 65, hlt⟩
    simpa [show 65 + (x - 65) = x by omega] using this
  have hnd : upperChars.Nodup := List.nodup_range' 65 26 1 (by omega)
  have hsp : upperChars.Subperm a := List.subperm_of_subset hnd hsub
  have hlen : a.length ≤ upperChars.length := by
    rw [h.1]
    unfold upperChars
    rw [List.length_range']
  exact (hsp.perm_of_length_le hlen).symm

theorem validAlpha_nodup {a : List Nat} (h : ValidAlpha a) : a.Nodup :=
  (validAlpha_perm h).nodup_iff.mpr (List.nodup_range' 65 26 1 (by omega))

theorem validAlpha_mem_iff {a : List Nat} (h : ValidAlpha a) (c : Nat) :
    c ∈ a ↔ IsUp c := by
  rw [(validAlpha_perm h).mem_iff]
  unfold upperChars IsUp
  rw [List.mem_range'_1]
  omega

theorem validAlpha_rotL {a : List Nat} (h : ValidAlpha a) (n : Nat) :
    ValidAlpha (rotL a n) := by
  constructor
  · rw [length_rotL]; exact h.1
  · intro i
    rw [(perm_rotL a n).mem_iff]
    exact h.2 i

theorem validAlpha_rotR {a : List Nat} (h : ValidAlpha a) (n : Nat) :
    ValidAlpha (rotR a n) := validAlpha_rotL h _

/-! ### Forward and backward lookups are inverse on a valid alphabet -/

theorem valid_getD_mem {a : List Nat} (h : ValidAlpha a) {i : Nat} (hi : i < 26) :
    a.getD i 0 ∈ a := by
  have hi' : i < a.length := by rw [h.1]; exact hi
  rw [List.getD_eq_getElem?_getD, List.getElem?_eq_getElem hi']
  exact List.getElem_mem hi'

theorem valid_indexOf_getD {a : List Nat} (h : ValidAlpha a) {i : Nat} (hi : i < 26) :
    a.indexOf (a.getD i 0) = i := by
  have hi' : i < a.length := by rw [h.1]; exact hi
  rw [List.getD_eq_getElem?_getD, List.getElem?_eq_getElem hi']
  show a.indexOf a[i] = i
  have := List.get_indexOf (validAlpha_nodup h) ⟨i, hi'⟩
  simpa using this

theorem valid_getD_indexOf {a : List Nat} (h : ValidAlpha a) {c : Nat} (hc : c ∈ a) :
    a.getD (a.indexOf c) 0 = c := by
  have hlt : a.indexOf c < a.length := List.indexOf_lt_length.mpr hc
  rw [List.getD_eq_getElem?_getD, List.getElem?_eq_getElem hlt]
  exact List.getElem_indexOf hlt

theorem valid_indexOf_lt {a : List Nat} (h : ValidAlpha a) {c : Nat} (hc : c ∈ a) :
    a.indexOf c < 26 := by
  have h2 := List.indexOf_lt_length.mpr hc
  rw [h.1] at h2
  exact h2

/-! ### Rotor / stator forward-backward inverse lemmas -/

theorem rotor_right_left {r : Rotor} (h : ValidAlpha r.alpha) {c : Nat} (hc : IsUp c) :
    r.right (r.left c) = c ∧ IsUp (r.left c) := by
  unfold Rotor.left Rotor.right
  rw [pyUpper_of_up hc]
  have hlt : c - 65 < 26 := by unfold IsUp at hc; omega
  have hmem := valid_getD_mem h hlt
  refine ⟨?_, (validAlpha_mem_iff h _).mp hmem⟩
  rw [valid_indexOf_getD h hlt]
  unfold IsUp at hc
  omega

theorem rotor_left_right {r : Rotor} (h : ValidAlpha r.alpha) {c : Nat} (hc : IsUp c) :
    r.left (r.right c) = c ∧ IsUp (r.right c) := by
  unfold Rotor.left Rotor.right
  have hmem : c ∈ r.alpha := (validAlpha_mem_iff h c).mpr hc
  have hlt := valid_indexOf_lt h hmem
  have hup2 : IsUp (r.alpha.indexOf c + 65) := ⟨by omega, by omega⟩
  refine ⟨?_, hup2⟩
  rw [pyUpper_of_up hup2]
  have he : r.alpha.indexOf c + 65 - 65 = r.alpha.indexOf c := by omega
  rw [he]
  exact valid_getD_indexOf h hmem

theorem stator_right_left {s : Stator} (h : ValidAlpha s.alpha) {c : Nat} (hc : IsUp c) :
    s.right (s.left c) = c ∧ IsUp (s.left c) := by
  unfold Stator.left Stator.right
  rw [pyUpper_of_up hc]
  have hlt : c - 65 < 26 := by unfold IsUp at hc; omega
  have hmem := valid_getD_mem h hlt
  refine ⟨?_, (validAlpha_mem_iff h _).mp hmem⟩
  rw [valid_indexOf_getD h hlt]
  unfold IsUp at hc
  omega

theorem stator_left_right {s : Stator} (h : ValidAlpha s.alpha) {c : Nat} (hc : IsUp c) :
    s.left (s.right c) = c ∧ IsUp (s.right c) := by
  unfold Stator.left Stator.right
  have hmem : c ∈ s.alpha := (validAlpha_mem_iff h c).mpr hc
  have hlt := valid_indexOf_lt h hmem
  have hup2 : IsUp (s.alpha.indexOf c + 65) := ⟨by omega, by omega⟩
  refine ⟨?_, hup2⟩
  rw [pyUpper_of_up hup2]
  have he : s.alpha.indexOf c + 65 - 65 = s.alpha.indexOf c := by omega
  rw [he]
  exact valid_getD_indexOf h hmem

theorem statorInvol_apply {u : Stator} (hui : StatorInvol u) {x : Nat} (hup : IsUp x) :
    u.left (u.left x) = x := by
  have hlt : x - 65 < 26 := by unfold IsUp at hup; omega
  have := hui ⟨x - 65, hlt⟩
  have he : 65 + (x - 65) = x := by unfold IsUp at hup; omega
  rwa [he] at this

/-! ### The rotor-bank passes are mutually inverse on valid banks -/

theorem travelLeft_cons (r : Rotor) (rs : List Rotor) (c : Nat) :
    travelLeft (r :: rs) c = r.left (travelLeft rs c) := rfl

theorem travelRight_cons (r : Rotor) (rs : List Rotor) (c : Nat) :
    travelRight (r :: rs) c = travelRight rs (r.right c) := rfl

theorem travel_left_inv : ∀ (rs : List Rotor), (∀ r ∈ rs, ValidAlpha r.alpha) →
    ∀ (c : Nat), IsUp c →
      travelRight rs (travelLeft rs c) = c ∧ IsUp (travelLeft rs c) := by
  intro rs
  induction rs with
  | nil => exact fun _ c hc => ⟨rfl, hc⟩
  | cons r rest ih =>
    intro hv c hc
    have hr := hv r (List.mem_cons_self r rest)
    obtain ⟨ih1, ih2⟩ := ih (fun q hq => hv q (List.mem_cons_of_mem _ hq)) c hc
    rw [travelLeft_cons, travelRight_cons]
    obtain ⟨h1, h2⟩ := rotor_right_left hr ih2
    rw [h1]
    exact ⟨ih1, h2⟩

theorem travel_right_inv : ∀ (rs : List Rotor), (∀ r ∈ rs, ValidAlpha r.alpha) →
    ∀ (c : Nat), IsUp c →
      travelLeft rs (travelRight rs c) = c ∧ IsUp (travelRight rs c) := by
  intro rs
  induction rs with
  | nil => exact fun _ c hc => ⟨rfl, hc⟩
  | cons r rest ih =>
    intro hv c hc
    have hr := hv r (List.mem_cons_self r rest)
    obtain ⟨h1, h2⟩ := rotor_left_right hr hc
    obtain ⟨ih1, ih2⟩ := ih (fun q hq => hv q (List.mem_cons_of_mem _ hq)) (r.right c) h2
    rw [travelRight_cons, travelLeft_cons, ih1, h1]
    exact ⟨rfl, ih2⟩

theorem travelLeft_pyUpper : ∀ (rs : List Rotor), rs ≠ [] →
    ∀ (c : Nat), travelLeft rs c = travelLeft rs (pyUpper c) := by
  intro rs
  induction rs with
  | nil => intro h; exact absurd rfl h
  | cons r rest ih =>
    intro _ c
    cases rest with
    | nil =>
      show r.left c = r.left (pyUpper c)
      unfold Rotor.left
      rw [pyUpper_idem]
    | cons q qs =>
      show r.left (travelLeft (q :: qs) c) = r.left (travelLeft (q :: qs) (pyUpper c))
      rw [ih (by simp) c]

/-! ### Plugboard lemmas -/

theorem applyPlugboard_result (pb : List (Nat × Nat)) (c : Nat) :
    applyPlugboard pb c = c ∨
      ∃ p ∈ pb, applyPlugboard pb c = p.1 ∨ applyPlugboard pb c = p.2 := by
  induction pb with
  | nil => left; rfl
  | cons p rest ih =>
    obtain ⟨a, b⟩ := p
    simp only [applyPlugboard]
    by_cases h1 : c = a
    · rw [if_pos h1]
      right
      exact ⟨(a, b), List.mem_cons_self _ _, Or.inr rfl⟩
    · rw [if_neg h1]
      by_cases h2 : c = b
      · rw [if_pos h2]
        right
        exact ⟨(a, b), List.mem_cons_self _ _, Or.inl rfl⟩
      · rw [if_neg h2]
        rcases ih with h | ⟨q, hq, hh⟩
        · left; exact h
        · right; exact ⟨q, List.mem_cons_of_mem _ hq, hh⟩

theorem pbGood_tail {p : Nat × Nat} {rest : List (Nat × Nat)}
    (h : PBGood (p :: rest)) : PBGood rest := by
  obtain ⟨hnd, hup⟩ := h
  refine ⟨?_, fun q hq => hup q (List.mem_cons_of_mem _ hq)⟩
  have h2 : (p.1 :: p.2 :: rest.flatMap (fun q => [q.1, q.2])).Nodup := hnd
  exact (List.nodup_cons.mp (List.nodup_cons.mp h2).2).2

theorem pbGood_head_facts {a b : Nat} {rest : List (Nat × Nat)}
    (h : PBGood ((a, b) :: rest)) :
    a ≠ b ∧ a ∉ rest.flatMap (fun q => [q.1, q.2]) ∧
      b ∉ rest.flatMap (fun q => [q.1, q.2]) := by
  have h2 : (a :: b :: rest.flatMap (fun q => [q.1, q.2])).Nodup := h.1
  obtain ⟨ha, h3⟩ := List.nodup_cons.mp h2
  obtain ⟨hb, -⟩ := List.nodup_cons.mp h3
  refine ⟨?_, ?_, hb⟩
  · intro he; exact ha (he ▸ List.mem_cons_self _ _)
  · intro he; exact ha (List.mem_cons_of_mem _ he)

theorem mem_flat_of_mem {pb : List (Nat × Nat)} {q : Nat × Nat} (h : q ∈ pb) :
    q.1 ∈ pb.flatMap (fun p => [p.1, p.2]) ∧ q.2 ∈ pb.flatMap (fun p => [p.1, p.2]) := by
  constructor <;> (rw [List.mem_flatMap]; exact ⟨q, h, by simp⟩)

theorem applyPlugboard_invol : ∀ (pb : List (Nat × Nat)), PBGood pb →
    ∀ (c : Nat), applyPlugboard pb (applyPlugboard pb c) = c := by
  intro pb
  induction pb with
  | nil => exact fun _ _ => rfl
  | cons p rest ih =>
    intro h c
    obtain ⟨a, b⟩ := p
    obtain ⟨hab, ha, hb⟩ := pbGood_head_facts h
    have htail := pbGood_tail h
    simp only [applyPlugboard]
    by_cases h1 : c = a
    · rw [if_pos h1, if_neg (fun hba => hab hba.symm), if_pos rfl, h1]
    · rw [if_neg h1]
      by_cases h2 : c = b
      · rw [if_pos h2, if_pos rfl, h2]
      · rw [if_neg h2]
        have hres := applyPlugboard_result rest c
        have hda : applyPlugboard rest c ≠ a := by
          rcases hres with he | ⟨q, hq, hh⟩
          · rw [he]; exact h1
          · intro hcon
            rcases hh with hh | hh
            · exact ha (hcon ▸ hh ▸ (mem_flat_of_mem hq).1)
            · exact ha (hcon ▸ hh ▸ (mem_flat_of_mem hq).2)
        have hdb : applyPlugboard rest c ≠ b := by
          rcases hres with he | ⟨q, hq, hh⟩
          · rw [he]; exact h2
          · intro hcon
            rcases hh with hh | hh
            · exact hb (hcon ▸ hh ▸ (mem_flat_of_mem hq).1)
            · exact hb (hcon ▸ hh ▸ (mem_flat_of_mem hq).2)
        rw [if_neg hda, if_neg hdb]
        exact ih htail c

theorem applyPlugboard_isUp {pb : List (Nat × Nat)} (h : PBGood pb) {c : Nat}
    (hc : IsUp c) : IsUp (applyPlugboard pb c) := by
  rcases applyPlugboard_result pb c with he | ⟨p, hp, he | he⟩
  · rw [he]; exact hc
  · rw [he]; exact (h.2 p hp).1
  · rw [he]; exact (h.2 p hp).2

/-- The signal path is an involution on uppercase letters, provided every
rotor alphabet is a valid (uppercase-permutation) alphabet, the ETW (if any)
is valid, and the UKW (if any) is valid *and* involutive; the output is again
an uppercase letter. -/
theorem signalTravel_inv (m : Enigma) (hv : ∀ r ∈ m.rotors, ValidAlpha r.alpha)
    (hetw : OptEtwValid m.etw) (hukw : OptUkwValid m.ukw) {c : Nat} (hc : IsUp c) :
    IsUp (m.signalTravel c) ∧ m.signalTravel (m.signalTravel c) = c := by
  cases hetwc : m.etw with
  | none =>
    cases hukwc : m.ukw with
    | none =>
      have hfun : ∀ x, m.signalTravel x = travelRight m.rotors (travelLeft m.rotors x) := by
        intro x
        unfold Enigma.signalTravel
        rw [hetwc, hukwc]
      simp only [hfun]
      obtain ⟨h1, _⟩ := travel_left_inv m.rotors hv c hc
      rw [h1]
      exact ⟨hc, h1⟩
    | some u =>
      have hukw' : ValidAlpha u.alpha ∧ StatorInvol u := by rw [hukwc] at hukw; exact hukw
      obtain ⟨huv, hui⟩ := hukw'
      have hfun : ∀ x, m.signalTravel x
          = travelRight m.rotors (u.left (travelLeft m.rotors x)) := by
        intro x
        unfold Enigma.signalTravel
        rw [hetwc, hukwc]
      simp only [hfun]
      obtain ⟨hTL1, hTLup⟩ := travel_left_inv m.rotors hv c hc
      have hUup : IsUp (u.left (travelLeft m.rotors c)) := (stator_right_left huv hTLup).2
      obtain ⟨hTR1, hTRup⟩ := travel_right_inv m.rotors hv _ hUup
      refine ⟨hTRup, ?_⟩
      rw [hTR1, statorInvol_apply hui hTLup, hTL1]
  | some e =>
    have hetw' : ValidAlpha e.alpha := by rw [hetwc] at hetw; exact hetw
    cases hukwc : m.ukw with
    | none =>
      have hfun : ∀ x, m.signalTravel x
          = e.right (travelRight m.rotors (travelLeft m.rotors (e.left x))) := by
        intro x
        unfold Enigma.signalTravel
        rw [hetwc, hukwc]
      simp only [hfun]
      obtain ⟨hERL, hEup⟩ := stator_right_left hetw' hc
      obtain ⟨hTL1, hTLup⟩ := travel_left_inv m.rotors hv _ hEup
      rw [hTL1, hERL]
      obtain ⟨-, hE'up⟩ := stator_left_right hetw' hEup
      constructor
      · rw [hERL] at hE'up
        exact hc
      · rw [hTL1, hERL]
    | some u =>
      have hukw' : ValidAlpha u.alpha ∧ StatorInvol u := by rw [hukwc] at hukw; exact hukw
      obtain ⟨huv, hui⟩ := hukw'
      have hfun : ∀ x, m.signalTravel x
          = e.right (travelRight m.rotors (u.left (travelLeft m.rotors (e.left x)))) := by
        intro x
        unfold Enigma.signalTravel
        rw [hetwc, hukwc]
      simp only [hfun]
      obtain ⟨hERL, hEup⟩ := stator_right_left hetw' hc
      obtain ⟨hTL1, hTLup⟩ := travel_left_inv m.rotors hv _ hEup
      have hUup : IsUp (u.left (travelLeft m.rotors (e.left c))) :=
        (stator_right_left huv hTLup).2
      obtain ⟨hTR1, hTRup⟩ := travel_right_inv m.rotors hv _ hUup
      obtain ⟨hELR, hE'up⟩ := stator_left_right hetw' hTRup
      refine ⟨hE'up, ?_⟩
      rw [hELR, hTR1, statorInvol_apply hui hTLup, hTL1, hERL]

/-! ### Claim C5 (amended): every uppercase permutation is accepted as a
reflector wiring -/

theorem validAlpha_map_pyUpper {a : List Nat} (h : ValidAlpha a) :
    a.map pyUpper = a := by
  have he : ∀ x ∈ a, pyUpper x = id x :=
    fun x hx => pyUpper_of_up ((validAlpha_mem_iff h x).mp hx)
  rw [List.map_congr_left he, List.map_id]

/-- C5 (amended): `Stator.__init__` (used by `setUKW`) succeeds for *every*
26-letter uppercase-permutation wiring: the validation it performs —
alphabet well-formedness and `right(left(a)) == a` for every letter — holds
for every permutation, involutive or not; involutivity is never checked. -/
theorem C5_amended (a : List Nat) (h : ValidAlpha a) :
    (Stator.init a).isSome = true := by
  unfold Stator.init
  have hchk : alphaCheck a = true := by
    unfold alphaCheck
    rw [Bool.and_eq_true_iff]
    refine ⟨decide_eq_true h.1, ?_⟩
    rw [List.all_eq_true]
    intro L hL
    rw [validAlpha_map_pyUpper h]
    have hr := List.mem_range'_1.mp hL
    have hmem : L ∈ a := (validAlpha_mem_iff h L).mpr ⟨by omega, by omega⟩
    exact List.elem_iff.mpr hmem
  rw [if_pos hchk]
  have hall : (a.all fun x =>
      decide ((⟨a⟩ : Stator).right ((⟨a⟩ : Stator).left x) = x)) = true := by
    rw [List.all_eq_true]
    intro x hx
    rw [decide_eq_true_iff]
    exact (stator_right_left h ((validAlpha_mem_iff h x).mp hx)).1
  rw [if_pos hall]
  rfl

/-- Closed instantiation of `C5_amended` at the identity wiring. -/
theorem C5_amended_witness : (Stator.init alphaETW).isSome = true :=
  C5_amended alphaETW (by decide)

/-! ### Everything the encode loop does to a rotor bank is "steps only" -/

theorem rotor_eta_step0 (r : Rotor) (b : Bool) :
    ({ alpha := rotL r.alpha 0, pos := r.pos + 0, notch := r.notch,
       stepped := b } : Rotor) = { r with stepped := b } := by
  cases r
  simp [rotL_zero]

theorem stepsOnly_refl (rs : List Rotor) : StepsOnly rs rs := by
  refine ⟨rfl, fun i hi => ⟨0, (rs.getD i dRot).stepped, ?_⟩⟩
  rw [rotor_eta_step0]

theorem stepsOnly_trans {rs1 rs2 rs3 : List Rotor}
    (h12 : StepsOnly rs1 rs2) (h23 : StepsOnly rs2 rs3) : StepsOnly rs1 rs3 := by
  obtain ⟨hl12, hf12⟩ := h12
  obtain ⟨hl23, hf23⟩ := h23
  refine ⟨by omega, fun i hi => ?_⟩
  obtain ⟨k1, b1, he1⟩ := hf12 i hi
  obtain ⟨k2, b2, he2⟩ := hf23 i (by omega)
  refine ⟨k1 + k2, b2, ?_⟩
  rw [he2, he1]
  simp only [rotL_rotL]
  congr 1
  omega

theorem stepsOnly_set_step (rs : List Rotor) (j n : Nat) :
    StepsOnly rs (rs.set j ((rs.getD j dRot).step n)) := by
  refine ⟨List.length_set rs j _, fun i hi => ?_⟩
  by_cases hij : j = i
  · subst hij
    exact ⟨n, true, by rw [getD_set_self _ _ _ _ hi]; rfl⟩
  · refine ⟨0, (rs.getD i dRot).stepped, ?_⟩
    rw [getD_set_ne _ _ _ hij, rotor_eta_step0]

theorem stepsOnly_resetAll (rs : List Rotor) : StepsOnly rs (resetAll rs) := by
  refine ⟨List.length_map _ _, fun i hi => ⟨0, false, ?_⟩⟩
  unfold resetAll
  rw [getD_map_core _ _ _ _ rfl, rotor_eta_step0]
  rfl

theorem stepsOnly_stepLast (rs : List Rotor) : StepsOnly rs (stepLast rs) :=
  stepsOnly_set_step rs _ 1

theorem stepsOnly_crBody (rs : List Rotor) (x : Nat) : StepsOnly rs (crBody rs x) := by
  unfold crBody
  by_cases hc : (rs.getD x dRot).hit_notch
  · rw [if_pos hc]
    have h1 : StepsOnly rs (rs.set (x - 1) ((rs.getD (x - 1) dRot).step 1)) :=
      stepsOnly_set_step rs (x - 1) 1
    by_cases hc2 : ((rs.set (x - 1) ((rs.getD (x - 1) dRot).step 1)).getD x dRot).in_notch
        && decide (x < (rs.set (x - 1) ((rs.getD (x - 1) dRot).step 1)).length - 1)
    · rw [if_pos hc2]
      exact stepsOnly_trans h1 (stepsOnly_trans (stepsOnly_set_step _ x 1)
        (stepsOnly_set_step _ (x - 1) 1))
    · rw [if_neg hc2]
      exact h1
  · rw [if_neg hc]
    by_cases hc2 : (rs.getD x dRot).in_notch && decide (x < rs.length - 1)
    · rw [if_pos hc2]
      exact stepsOnly_trans (stepsOnly_set_step rs x 1) (stepsOnly_set_step _ (x - 1) 1)
    · rw [if_neg hc2]
      exact stepsOnly_refl rs

theorem stepsOnly_crLoop : ∀ (n : Nat) (rs : List Rotor), StepsOnly rs (crLoop rs n) := by
  intro n
  induction n with
  | zero => exact fun rs => stepsOnly_refl rs
  | succ n ih =>
    intro rs
    show StepsOnly rs (crLoop (crBody rs (n + 1)) n)
    exact stepsOnly_trans (stepsOnly_crBody rs (n + 1)) (ih _)

theorem stepsOnly_computeRotations (rs : List Rotor) :
    StepsOnly rs (computeRotations rs) := stepsOnly_crLoop _ rs

theorem stepsOnly_encodeRotors (rs : List Rotor) :
    StepsOnly rs (computeRotations (stepLast (resetAll rs))) :=
  stepsOnly_trans (stepsOnly_resetAll rs)
    (stepsOnly_trans (stepsOnly_stepLast _) (stepsOnly_computeRotations _))

theorem stepsOnly_valid {rs rs' : List Rotor} (h : StepsOnly rs rs')
    (hv : ∀ r ∈ rs, ValidAlpha r.alpha) : ∀ r ∈ rs', ValidAlpha r.alpha := by
  intro r hr
  obtain ⟨i, hi, he⟩ := List.mem_iff_getElem.mp hr
  have hi' : i < rs.length := by rw [← h.1]; exact hi
  obtain ⟨k, b, hk⟩ := h.2 i hi'
  have hgd : rs'.getD i dRot = r := by
    rw [List.getD_eq_getElem?_getD, List.getElem?_eq_getElem hi, he]
    rfl
  have hmem : rs.getD i dRot ∈ rs := by
    rw [List.getD_eq_getElem?_getD, List.getElem?_eq_getElem hi']
    exact List.getElem_mem hi'
  rw [hgd] at hk
  rw [hk]
  exact validAlpha_rotL (hv _ hmem) k

/-! ### Decomposition of `encodeChar` and its invariants -/

theorem encodeChar_letter_eq (m : Enigma) (c : Nat) (h : isLetter c = true) :
    m.encodeChar c =
      ({ m with rotors := computeRotations (stepLast (resetAll m.rotors)) },
        applyPlugboard m.plugboard
          (Enigma.signalTravel { m with rotors := stepLast (resetAll m.rotors) }
            (applyPlugboard m.plugboard c))) := by
  unfold Enigma.encodeChar
  rw [if_pos h]

theorem encodeChar_not_letter (m : Enigma) (c : Nat) (h : isLetter c = false) :
    m.encodeChar c = (m, c) := by
  unfold Enigma.encodeChar
  rw [h]
  simp

theorem bool_eq_false_of_not {b : Bool} (h : ¬b = true) : b = false := by
  cases b
  · rfl
  · exact absurd rfl h

theorem stepsOnly_encodeChar (m : Enigma) (c : Nat) :
    StepsOnly m.rotors (m.encodeChar c).fst.rotors := by
  by_cases h : isLetter c = true
  · rw [encodeChar_letter_eq m c h]
    exact stepsOnly_encodeRotors _
  · rw [encodeChar_not_letter m c (bool_eq_false_of_not h)]
    exact stepsOnly_refl _

theorem encodeChar_fields (m : Enigma) (c : Nat) :
    (m.encodeChar c).fst.etw = m.etw ∧ (m.encodeChar c).fst.ukw = m.ukw ∧
      (m.encodeChar c).fst.plugboard = m.plugboard ∧
      (m.encodeChar c).fst.ukwAvail = m.ukwAvail ∧
      (m.encodeChar c).fst.etwAvail = m.etwAvail := by
  by_cases h : isLetter c = true
  · rw [encodeChar_letter_eq m c h]
    exact ⟨rfl, rfl, rfl, rfl, rfl⟩
  · rw [encodeChar_not_letter m c (bool_eq_false_of_not h)]
    exact ⟨rfl, rfl, rfl, rfl, rfl⟩

theorem enigmaValid_encodeChar {m : Enigma} (hval : EnigmaValid m) (c : Nat) :
    EnigmaValid (m.encodeChar c).fst := by
  obtain ⟨hv, h2, h3, h4⟩ := hval
  obtain ⟨he, hu, hp, -, -⟩ := encodeChar_fields m c
  exact ⟨stepsOnly_valid (stepsOnly_encodeChar m c) hv, he ▸ h2, hu ▸ h3, hp ▸ h4⟩

/-- For an uppercase letter, the per-character output is an uppercase letter,
re-encoding it at the same pre-state gives the original letter back, and the
machine advances to the same state either way. -/
theorem encodeChar_out (m : Enigma) (hval : EnigmaValid m) {c : Nat} (hc : IsUp c) :
    IsUp (m.encodeChar c).snd ∧
      (m.encodeChar ((m.encodeChar c).snd)).snd = c ∧
      (m.encodeChar ((m.encodeChar c).snd)).fst = (m.encodeChar c).fst := by
  obtain ⟨hv, hetw, hukw, hpb⟩ := hval
  have hlc := isLetter_of_up hc
  have hv1 : ∀ r ∈ stepLast (resetAll m.rotors), ValidAlpha r.alpha :=
    stepsOnly_valid (stepsOnly_trans (stepsOnly_resetAll _) (stepsOnly_stepLast _)) hv
  have hup1 : IsUp (applyPlugboard m.plugboard c) := applyPlugboard_isUp hpb hc
  obtain ⟨hupS, hSS⟩ :=
    signalTravel_inv { m with rotors := stepLast (resetAll m.rotors) } hv1 hetw hukw hup1
  have hupOut : IsUp (applyPlugboard m.plugboard
      (Enigma.signalTravel { m with rotors := stepLast (resetAll m.rotors) }
        (applyPlugboard m.plugboard c))) := applyPlugboard_isUp hpb hupS
  rw [encodeChar_letter_eq m c hlc]
  refine ⟨hupOut, ?_, ?_⟩
  · show (m.encodeChar (applyPlugboard m.plugboard
      (Enigma.signalTravel { m with rotors := stepLast (resetAll m.rotors) }
        (applyPlugboard m.plugboard c)))).snd = c
    rw [encodeChar_letter_eq m _ (isLetter_of_up hupOut)]
    show applyPlugboard m.plugboard
        (Enigma.signalTravel { m with rotors := stepLast (resetAll m.rotors) }
          (applyPlugboard m.plugboard (applyPlugboard m.plugboard
            (Enigma.signalTravel { m with rotors := stepLast (resetAll m.rotors) }
              (applyPlugboard m.plugboard c))))) = c
    rw [applyPlugboard_invol _ hpb, hSS, applyPlugboard_invol _ hpb]
  · show (m.encodeChar (applyPlugboard m.plugboard
      (Enigma.signalTravel { m with rotors := stepLast (resetAll m.rotors) }
        (applyPlugboard m.plugboard c)))).fst = _
    rw [encodeChar_letter_eq m _ (isLetter_of_up hupOut)]

/-! ### The character loop -/

theorem encodeChars_cons (m : Enigma) (c : Nat) (cs : List Nat) :
    m.encodeChars (c :: cs) =
      (((m.encodeChar c).fst.encodeChars cs).fst,
        (m.encodeChar c).snd :: ((m.encodeChar c).fst.encodeChars cs).snd) := rfl

theorem stepsOnly_encodeChars : ∀ (s : List Nat) (m : Enigma),
    StepsOnly m.rotors ((m.encodeChars s).fst.rotors) := by
  intro s
  induction s with
  | nil => exact fun m => stepsOnly_refl _
  | cons c cs ih =>
    intro m
    rw [encodeChars_cons]
    exact stepsOnly_trans (stepsOnly_encodeChar m c) (ih _)

theorem encodeChars_fields : ∀ (s : List Nat) (m : Enigma),
    (m.encodeChars s).fst.etw = m.etw ∧ (m.encodeChars s).fst.ukw = m.ukw ∧
      (m.encodeChars s).fst.plugboard = m.plugboard ∧
      (m.encodeChars s).fst.ukwAvail = m.ukwAvail ∧
      (m.encodeChars s).fst.etwAvail = m.etwAvail := by
  intro s
  induction s with
  | nil => exact fun m => ⟨rfl, rfl, rfl, rfl, rfl⟩
  | cons c cs ih =>
    intro m
    rw [encodeChars_cons]
    obtain ⟨h1, h2, h3, h4, h5⟩ := encodeChar_fields m c
    obtain ⟨g1, g2, g3, g4, g5⟩ := ih (m.encodeChar c).fst
    exact ⟨g1.trans h1, g2.trans h2, g3.trans h3, g4.trans h4, g5.trans h5⟩

theorem enigmaValid_encodeChars : ∀ (s : List Nat) (m : Enigma),
    EnigmaValid m → EnigmaValid (m.encodeChars s).fst := by
  intro s
  induction s with
  | nil => exact fun m h => h
  | cons c cs ih =>
    intro m h
    rw [encodeChars_cons]
    exact ih _ (enigmaValid_encodeChar h c)

/-- Re-encoding the output of `encodeChars` from the *same* machine state
returns the original uppercase plaintext (and drives the rotors through the
same state sequence). -/
theorem encode_roundtrip : ∀ (s : List Nat) (m : Enigma), EnigmaValid m →
    (∀ c ∈ s, IsUp c) →
    m.encodeChars ((m.encodeChars s).snd) = ((m.encodeChars s).fst, s) := by
  intro s
  induction s with
  | nil => exact fun m _ _ => rfl
  | cons c cs ih =>
    intro m hval hs
    have hc : IsUp c := hs c (List.mem_cons_self _ _)
    have hcs : ∀ x ∈ cs, IsUp x := fun x hx => hs x (List.mem_cons_of_mem _ hx)
    obtain ⟨hupE, hEE, hMM⟩ := encodeChar_out m hval hc
    have ihh := ih (m.encodeChar c).fst (enigmaValid_encodeChar hval c) hcs
    rw [encodeChars_cons m c cs]
    show m.encodeChars ((m.encodeChar c).snd :: ((m.encodeChar c).fst.encodeChars cs).snd)
      = (((m.encodeChar c).fst.encodeChars cs).fst, c :: cs)
    rw [encodeChars_cons m _ _, hMM, hEE, ihh]

/-! ### Machines that agree on everything but `_stepped` flags encode alike -/

theorem getD_lt {α : Type} (l : List α) (i : Nat) (d : α) (h : i < l.length) :
    l.getD i d = l[i] := by
  rw [List.getD_eq_getElem?_getD, List.getElem?_eq_getElem h]
  rfl

theorem resetAll_eq_of_core : ∀ (rs rs' : List Rotor),
    rs.map rotorCore = rs'.map rotorCore → resetAll rs = resetAll rs' := by
  intro rs
  induction rs with
  | nil =>
    intro rs' h
    cases rs' with
    | nil => rfl
    | cons r' rest' => cases h
  | cons r rest ih =>
    intro rs' h
    cases rs' with
    | nil => cases h
    | cons r' rest' =>
      injection h with h1 h2
      have hr : r.resetStep = r'.resetStep := by
        cases r
        cases r'
        unfold rotorCore at h1
        simp only [Prod.mk.injEq] at h1
        unfold Rotor.resetStep
        simp [h1.1, h1.2.1, h1.2.2]
      show r.resetStep :: resetAll rest = r'.resetStep :: resetAll rest'
      rw [hr, ih rest' h2]

theorem signalTravel_congr (m m' : Enigma) (hr : m.rotors = m'.rotors)
    (he : m.etw = m'.etw) (hu : m.ukw = m'.ukw) (x : Nat) :
    m.signalTravel x = m'.signalTravel x := by
  unfold Enigma.signalTravel
  rw [hr, he, hu]

theorem encodeChars_congr : ∀ (s : List Nat) (m m' : Enigma),
    m.rotors.map rotorCore = m'.rotors.map rotorCore →
    m.etw = m'.etw → m.ukw = m'.ukw → m.plugboard = m'.plugboard →
    (m.encodeChars s).snd = (m'.encodeChars s).snd := by
  intro s
  induction s with
  | nil => intro m m' _ _ _ _; rfl
  | cons c cs ih =>
    intro m m' hcore hetw hukw hpb
    rw [encodeChars_cons, encodeChars_cons]
    by_cases h : isLetter c = true
    · have hreset : resetAll m.rotors = resetAll m'.rotors := resetAll_eq_of_core _ _ hcore
      have hstep : stepLast (resetAll m.rotors) = stepLast (resetAll m'.rotors) := by
        rw [hreset]
      have hsig : ∀ x,
          Enigma.signalTravel { m with rotors := stepLast (resetAll m.rotors) } x
            = Enigma.signalTravel { m' with rotors := stepLast (resetAll m'.rotors) } x :=
        fun x => signalTravel_congr { m with rotors := stepLast (resetAll m.rotors) }
          { m' with rotors := stepLast (resetAll m'.rotors) } hstep hetw hukw x
      have hout : (m.encodeChar c).snd = (m'.encodeChar c).snd := by
        rw [encodeChar_letter_eq m c h, encodeChar_letter_eq m' c h]
        show applyPlugboard m.plugboard
            (Enigma.signalTravel { m with rotors := stepLast (resetAll m.rotors) }
              (applyPlugboard m.plugboard c)) = _
        rw [hsig, hpb]
      have hrots : (m.encodeChar c).fst.rotors = (m'.encodeChar c).fst.rotors := by
        rw [encodeChar_letter_eq m c h, encodeChar_letter_eq m' c h]
        show computeRotations (stepLast (resetAll m.rotors)) = _
        rw [hstep]
      have htail : ((m.encodeChar c).fst.encodeChars cs).snd
          = ((m'.encodeChar c).fst.encodeChars cs).snd := by
        apply ih
        · rw [hrots]
        · exact ((encodeChar_fields m c).1.trans hetw).trans (encodeChar_fields m' c).1.symm
        · exact ((encodeChar_fields m c).2.1.trans hukw).trans
            (encodeChar_fields m' c).2.1.symm
        · exact ((encodeChar_fields m c).2.2.1.trans hpb).trans
            (encodeChar_fields m' c).2.2.1.symm
      rw [hout, htail]
    · have hf := bool_eq_false_of_not h
      rw [encodeChar_not_letter m c hf, encodeChar_not_letter m' c hf]
      show c :: (m.encodeChars cs).snd = c :: (m'.encodeChars cs).snd
      rw [ih m m' hcore hetw hukw hpb]

/-! ### `position` setter arithmetic -/

theorem setPosition_def (r : Rotor) (p : Nat) :
    r.setPosition p =
      ⟨rotL (rotR r.alpha r.pos) (pyUpper p - 65), pyUpper p - 65,
        r.notch, r.stepped⟩ := rfl

theorem length_setPosition (r : Rotor) (p : Nat) :
    (r.setPosition p).alpha.length = r.alpha.length := by
  rw [setPosition_def]
  show (rotL (rotR r.alpha r.pos) _).length = _
  unfold rotR
  rw [length_rotL, length_rotL]

theorem validAlpha_setPosition {r : Rotor} (h : ValidAlpha r.alpha) (p : Nat) :
    ValidAlpha (r.setPosition p).alpha := by
  rw [setPosition_def]
  exact validAlpha_rotL (validAlpha_rotR h _) _

/-- Setting the position of a rotor that has merely been stepped (by any
amount, with any flag) yields, up to the `_stepped` flag, the same rotor as
setting the position of the original: the setter's `rotate(_position)` undoes
exactly the net rotation modulo 26. -/
theorem setPosition_core (r1 : Rotor) (k : Nat) (b : Bool) (p : Nat)
    (hL : r1.alpha.length = 26) :
    rotorCore (Rotor.setPosition
        ⟨rotL r1.alpha k, r1.pos + k, r1.notch, b⟩ p)
      = rotorCore (r1.setPosition p) := by
  have halpha : rotL (rotR (rotL r1.alpha k) (r1.pos + k)) (pyUpper p - 65)
      = rotL (rotR r1.alpha r1.pos) (pyUpper p - 65) := by
    unfold rotR
    rw [length_rotL, hL]
    simp only [rotL_rotL]
    apply rotL_eq_of_mod
    rw [hL]
    omega
  show (rotL (rotR (rotL r1.alpha k) (r1.pos + k)) (pyUpper p - 65),
      pyUpper p - 65, r1.notch)
    = (rotL (rotR r1.alpha r1.pos) (pyUpper p - 65), pyUpper p - 65, r1.notch)
  rw [halpha]

theorem setPosition_core_idem (r : Rotor) (p : Nat) (hL : r.alpha.length = 26) :
    rotorCore ((r.setPosition p).setPosition p) = rotorCore (r.setPosition p) := by
  have halpha : rotL (rotR (rotL (rotR r.alpha r.pos) (pyUpper p - 65))
        (pyUpper p - 65)) (pyUpper p - 65)
      = rotL (rotR r.alpha r.pos) (pyUpper p - 65) := by
    unfold rotR
    simp only [length_rotL]
    rw [hL]
    simp only [rotL_rotL]
    apply rotL_eq_of_mod
    rw [hL]
    omega
  show (rotL (rotR (rotL (rotR r.alpha r.pos) (pyUpper p - 65))
        (pyUpper p - 65)) (pyUpper p - 65), pyUpper p - 65, r.notch)
    = (rotL (rotR r.alpha r.pos) (pyUpper p - 65), pyUpper p - 65, r.notch)
  rw [halpha]

theorem getD_zipWith_setPos (rs : List Rotor) (P : List Nat) (i : Nat)
    (hi : i < rs.length) (hiP : i < P.length) :
    (List.zipWith Rotor.setPosition rs P).getD i dRot
      = (rs.getD i dRot).setPosition (P.getD i 0) := by
  have hl : i < (List.zipWith Rotor.setPosition rs P).length := by
    rw [List.length_zipWith]
    omega
  rw [getD_lt _ _ _ hl, getD_lt _ _ _ hi, getD_lt _ _ _ hiP]
  exact List.getElem_zipWith

theorem map_core_ext (rs rs' : List Rotor) (hl : rs.length = rs'.length)
    (h : ∀ i, i < rs.length →
      rotorCore (rs.getD i dRot) = rotorCore (rs'.getD i dRot)) :
    rs.map rotorCore = rs'.map rotorCore := by
  refine List.ext_getElem (by rw [List.length_map, List.length_map, hl]) ?_
  intro i h1 h2
  rw [List.getElem_map, List.getElem_map]
  have hi : i < rs.length := by rw [List.length_map] at h1; exact h1
  have hh := h i hi
  rwa [getD_lt _ _ _ hi, getD_lt _ _ _ (by rw [← hl]; exact hi)] at hh

/-! ### `encode` guard transfer -/

theorem encodeOk_of_fields {m m' : Enigma}
    (hlen : m'.rotors.length = m.rotors.length)
    (hu : m'.ukw = m.ukw) (he : m'.etw = m.etw)
    (hua : m'.ukwAvail = m.ukwAvail) (hea : m'.etwAvail = m.etwAvail)
    (h : m.encodeOk = true) : m'.encodeOk = true := by
  unfold Enigma.encodeOk at h ⊢
  rw [hu, he, hua, hea]
  have h1 : m.rotors.isEmpty = false := by
    rcases Bool.and_eq_true_iff.mp h with ⟨h2, -⟩
    rcases Bool.and_eq_true_iff.mp h2 with ⟨h3, -⟩
    cases hc : m.rotors.isEmpty
    · rfl
    · rw [hc] at h3; cases h3
  have h2 : m'.rotors.isEmpty = false := by
    cases hc : m'.rotors.isEmpty
    · rfl
    · exfalso
      have hz := List.isEmpty_iff_length_eq_zero.mp hc
      rw [hlen] at hz
      rw [List.isEmpty_iff_length_eq_zero.mpr hz] at h1
      cases h1
  rw [h2]
  rw [h1] at h
  exact h

theorem encode_eq_of_ok {m : Enigma} (h : m.encodeOk = true) (s : List Nat) :
    m.encode s = some ((m.encodeChars s).fst, (m.encodeChars s).snd) := by
  unfold Enigma.encode
  rw [if_pos h]

theorem rotors_ne_nil_of_ok {m : Enigma} (h : m.encodeOk = true) : m.rotors ≠ [] := by
  rcases Bool.and_eq_true_iff.mp h with ⟨h2, -⟩
  rcases Bool.and_eq_true_iff.mp h2 with ⟨h3, -⟩
  intro hnil
  rw [hnil] at h3
  cases h3

/-! ### Case-folding happens at the first transform of the signal path -/

theorem signalTravel_none (mm : Enigma) (he : mm.etw = none) (hu : mm.ukw = none)
    (x : Nat) :
    mm.signalTravel x = travelRight mm.rotors (travelLeft mm.rotors x) := by
  unfold Enigma.signalTravel
  rw [he, hu]

theorem signalTravel_pyUpper (mm : Enigma) (hne : mm.rotors ≠ []) (c : Nat) :
    mm.signalTravel (pyUpper c) = mm.signalTravel c := by
  cases he : mm.etw with
  | none =>
    cases hu : mm.ukw with
    | none =>
      have hfun : ∀ x, mm.signalTravel x
          = travelRight mm.rotors (travelLeft mm.rotors x) := by
        intro x
        unfold Enigma.signalTravel
        rw [he, hu]
      rw [hfun, hfun, ← travelLeft_pyUpper mm.rotors hne c]
    | some u =>
      have hfun : ∀ x, mm.signalTravel x
          = travelRight mm.rotors (u.left (travelLeft mm.rotors x)) := by
        intro x
        unfold Enigma.signalTravel
        rw [he, hu]
      rw [hfun, hfun, ← travelLeft_pyUpper mm.rotors hne c]
  | some e =>
    have hel : e.left (pyUpper c) = e.left c := by
      unfold Stator.left
      rw [pyUpper_idem]
    cases hu : mm.ukw with
    | none =>
      have hfun : ∀ x, mm.signalTravel x
          = e.right (travelRight mm.rotors (travelLeft mm.rotors (e.left x))) := by
        intro x
        unfold Enigma.signalTravel
        rw [he, hu]
      rw [hfun, hfun, hel]
    | some u =>
      have hfun : ∀ x, mm.signalTravel x
          = e.right (travelRight mm.rotors
              (u.left (travelLeft mm.rotors (e.left x)))) := by
        intro x
        unfold Enigma.signalTravel
        rw [he, hu]
      rw [hfun, hfun, hel]

/-- C1 (amended): for every valid machine that passes the `encode` guards —
rotors installed, reflector set when the reflector catalog is non-empty and
its wiring an *involution* (as all default-catalog reflectors are), entry
wheel set when that catalog is non-empty, plugboard pairs disjoint uppercase
letters — every rotor-position string P of the right length, and every
*uppercase* plaintext, encoding from positions P and then encoding the
ciphertext again from positions P returns the original plaintext. -/
theorem C1_amended (m0 : Enigma) (P s : List Nat)
    (hval : EnigmaValid m0) (hok : m0.encodeOk = true)
    (hP : P.length = m0.rotors.length)
    (hPl : ∀ p ∈ P, isLetter p = true)
    (hs : ∀ c ∈ s, IsUp c) :
    ∃ m2 ct m4,
      (m0.setRotorsPositions P).encode s = some (m2, ct) ∧
      (m2.setRotorsPositions P).encode ct = some (m4, s) := by
  have hv1 : EnigmaValid (m0.setRotorsPositions P) := by
    obtain ⟨hv, h2, h3, h4⟩ := hval
    refine ⟨?_, h2, h3, h4⟩
    intro r hr
    obtain ⟨i, hi, he⟩ := List.mem_iff_getElem.mp hr
    have hi' : i < (List.zipWith Rotor.setPosition m0.rotors P).length := hi
    rw [List.length_zipWith] at hi'
    have hi1 : i < m0.rotors.length := by omega
    have hi2 : i < P.length := by omega
    have hg : (List.zipWith Rotor.setPosition m0.rotors P).getD i dRot = r := by
      rw [getD_lt _ _ _ (by rw [List.length_zipWith]; omega)]
      exact he
    rw [getD_zipWith_setPos m0.rotors P i hi1 hi2] at hg
    rw [← hg]
    apply validAlpha_setPosition
    apply hv
    rw [getD_lt _ _ _ hi1]
    exact List.getElem_mem hi1
  have hlen1 : (m0.setRotorsPositions P).rotors.length = m0.rotors.length := by
    show (List.zipWith Rotor.setPosition m0.rotors P).length = _
    rw [List.length_zipWith]
    omega
  have hok1 : (m0.setRotorsPositions P).encodeOk = true :=
    encodeOk_of_fields hlen1 rfl rfl rfl rfl hok
  have hfields2 := encodeChars_fields s (m0.setRotorsPositions P)
  have hlen2 : ((m0.setRotorsPositions P).encodeChars s).fst.rotors.length
      = (m0.setRotorsPositions P).rotors.length :=
    (stepsOnly_encodeChars s (m0.setRotorsPositions P)).1
  have hlen3 : (((m0.setRotorsPositions P).encodeChars s).fst.setRotorsPositions
      P).rotors.length = m0.rotors.length := by
    show (List.zipWith Rotor.setPosition _ P).length = _
    rw [List.length_zipWith, hlen2, hlen1]
    omega
  have hok3 : ((((m0.setRotorsPositions P).encodeChars s).fst).setRotorsPositions
      P).encodeOk = true := by
    refine encodeOk_of_fields hlen3 ?_ ?_ ?_ ?_ hok
    · exact hfields2.2.1
    · exact hfields2.1
    · exact hfields2.2.2.2.1
    · exact hfields2.2.2.2.2
  refine ⟨((m0.setRotorsPositions P).encodeChars s).fst,
    ((m0.setRotorsPositions P).encodeChars s).snd,
    (((((m0.setRotorsPositions P).encodeChars s).fst).setRotorsPositions P).encodeChars
      (((m0.setRotorsPositions P).encodeChars s).snd)).fst,
    encode_eq_of_ok hok1 s, ?_⟩
  rw [encode_eq_of_ok hok3]
  have hcore : ((((m0.setRotorsPositions P).encodeChars s).fst).setRotorsPositions
        P).rotors.map rotorCore
      = (m0.setRotorsPositions P).rotors.map rotorCore := by
    apply map_core_ext
    · rw [hlen3, hlen1]
    · intro i hi
      rw [hlen3] at hi
      have hi2 : i < P.length := by omega
      have hml2 : i < ((m0.setRotorsPositions P).encodeChars s).fst.rotors.length := by
        rw [hlen2, hlen1]
        exact hi
      show rotorCore ((List.zipWith Rotor.setPosition
          (((m0.setRotorsPositions P).encodeChars s).fst.rotors) P).getD i dRot)
        = rotorCore ((List.zipWith Rotor.setPosition m0.rotors P).getD i dRot)
      rw [getD_zipWith_setPos _ P i hml2 hi2, getD_zipWith_setPos m0.rotors P i hi hi2]
      obtain ⟨k, b, hk⟩ := (stepsOnly_encodeChars s (m0.setRotorsPositions P)).2 i
        (by rw [hlen1]; exact hi)
      rw [hk]
      have hm1getD : (m0.setRotorsPositions P).rotors.getD i dRot
          = (m0.rotors.getD i dRot).setPosition (P.getD i 0) :=
        getD_zipWith_setPos m0.rotors P i hi hi2
      rw [hm1getD]
      have hmem0 : m0.rotors.getD i dRot ∈ m0.rotors := by
        rw [getD_lt _ _ _ hi]
        exact List.getElem_mem hi
      have hL0 : (m0.rotors.getD i dRot).alpha.length = 26 := (hval.1 _ hmem0).1
      have hL1 : ((m0.rotors.getD i dRot).setPosition (P.getD i 0)).alpha.length = 26 :=
        (length_setPosition _ _).trans hL0
      rw [setPosition_core ((m0.rotors.getD i dRot).setPosition (P.getD i 0)) k b
        (P.getD i 0) hL1]
      exact setPosition_core_idem (m0.rotors.getD i dRot) (P.getD i 0) hL0
  have hsnd : (((((m0.setRotorsPositions P).encodeChars s).fst).setRotorsPositions
        P).encodeChars (((m0.setRotorsPositions P).encodeChars s).snd)).snd = s := by
    rw [encodeChars_congr _ _ (m0.setRotorsPositions P) hcore hfields2.1 hfields2.2.1
      hfields2.2.2.1]
    exact congrArg Prod.snd (encode_roundtrip s (m0.setRotorsPositions P) hv1 hs)
  rw [hsnd]

/-- Closed instantiation of `C1_amended`: an M3 machine with plugboard pair
("A", "B"), positions "ADT", plaintext "HELLO". -/
theorem C1_amended_witness :
    ∃ m2 ct m4,
      (({ machM3 with plugboard := [(65, 66)] } : Enigma).setRotorsPositions
          (codes "ADT")).encode (codes "HELLO") = some (m2, ct) ∧
      (m2.setRotorsPositions (codes "ADT")).encode ct = some (m4, codes "HELLO") :=
  C1_amended { machM3 with plugboard := [(65, 66)] } (codes "ADT") (codes "HELLO")
    (by decide) (by decide) (by decide) (by decide) (by decide)

/-! ### Claim C8 (amended): with an empty plugboard, case is folded at the
first transform of the signal path, so encoding is case-insensitive -/

theorem rotors_ne_nil_encodeChar (m : Enigma) (c : Nat) (hne : m.rotors ≠ []) :
    (m.encodeChar c).fst.rotors ≠ [] := by
  intro hnil
  have hl := (stepsOnly_encodeChar m c).1
  rw [hnil] at hl
  exact hne (List.length_eq_zero.mp hl.symm)

theorem encodeChars_pyUpper : ∀ (s : List Nat) (m : Enigma), m.plugboard = [] →
    m.rotors ≠ [] → m.encodeChars (s.map pyUpper) = m.encodeChars s := by
  intro s
  induction s with
  | nil => intro m _ _; rfl
  | cons c cs ih =>
    intro m hpb hne
    show m.encodeChars (pyUpper c :: cs.map pyUpper) = m.encodeChars (c :: cs)
    rw [encodeChars_cons, encodeChars_cons]
    have hap : ∀ x, applyPlugboard m.plugboard x = x := by
      intro x
      rw [hpb]
      rfl
    by_cases h : isLetter c = true
    · have h2 : isLetter (pyUpper c) = true := by rw [isLetter_pyUpper]; exact h
      have hneX : stepLast (resetAll m.rotors) ≠ [] := by
        intro hnil
        have hl := (stepsOnly_trans (stepsOnly_resetAll m.rotors)
          (stepsOnly_stepLast _)).1
        rw [hnil] at hl
        exact hne (List.length_eq_zero.mp hl.symm)
      have hchar : m.encodeChar (pyUpper c) = m.encodeChar c := by
        rw [encodeChar_letter_eq m _ h2, encodeChar_letter_eq m c h]
        rw [hap, hap, hap, hap]
        rw [signalTravel_pyUpper { m with rotors := stepLast (resetAll m.rotors) } hneX c]
      rw [hchar, ih (m.encodeChar c).fst ((encodeChar_fields m c).2.2.1.trans hpb)
        (rotors_ne_nil_encodeChar m c hne)]
    · have hf := bool_eq_false_of_not h
      have hupc : pyUpper c = c := pyUpper_of_not_letter hf
      rw [hupc, ih (m.encodeChar c).fst ((encodeChar_fields m c).2.2.1.trans hpb)
        (rotors_ne_nil_encodeChar m c hne)]

/-- C8 (amended): on every configured machine with an *empty* plugboard,
`encode(s) = encode(uppercase(s))` for every ASCII string `s` (non-letter
ASCII characters are unchanged by upper-casing and passed through; letters
are folded at the first transform of the signal path).  With a non-empty
plugboard this fails (see the counterexample): lowercase letters bypass the
input-side swap. -/
theorem C8_amended (m : Enigma) (s : List Nat) (hok : m.encodeOk = true)
    (hpb : m.plugboard = []) (hascii : ∀ c ∈ s, c < 128) :
    m.encode s = m.encode (s.map pyUpper) := by
  unfold Enigma.encode
  rw [if_pos hok, if_pos hok, encodeChars_pyUpper s m hpb (rotors_ne_nil_of_ok hok)]

/-- Closed instantiation of `C8_amended` at an M3 machine and "Hi!". -/
theorem C8_amended_witness :
    machM3.encode (codes "Hi!") = machM3.encode ((codes "Hi!").map pyUpper) :=
  C8_amended machM3 (codes "Hi!") (by decide) rfl (by decide)

/-! ### Claim C10: with no reflector and no entry wheel the backward pass
undoes the forward pass, and the machine only upper-cases -/

theorem encodeChars_id_machine : ∀ (s : List Nat) (m : Enigma),
    m.ukw = none → m.etw = none → m.plugboard = [] → m.rotors ≠ [] →
    (∀ r ∈ m.rotors, ValidAlpha r.alpha) →
    (m.encodeChars s).snd = s.map pyUpper := by
  intro s
  induction s with
  | nil => intro m _ _ _ _ _; rfl
  | cons c cs ih =>
    intro m hukw hetw hpb hne hv
    rw [encodeChars_cons]
    show (m.encodeChar c).snd :: ((m.encodeChar c).fst.encodeChars cs).snd
      = pyUpper c :: cs.map pyUpper
    have hap : ∀ x, applyPlugboard m.plugboard x = x := by
      intro x
      rw [hpb]
      rfl
    have htail : ((m.encodeChar c).fst.encodeChars cs).snd = cs.map pyUpper := by
      obtain ⟨he, hu, hp, -, -⟩ := encodeChar_fields m c
      exact ih (m.encodeChar c).fst (hu.trans hukw) (he.trans hetw) (hp.trans hpb)
        (rotors_ne_nil_encodeChar m c hne)
        (stepsOnly_valid (stepsOnly_encodeChar m c) hv)
    by_cases h : isLetter c = true
    · have hneX : stepLast (resetAll m.rotors) ≠ [] := by
        intro hnil
        have hl := (stepsOnly_trans (stepsOnly_resetAll m.rotors)
          (stepsOnly_stepLast _)).1
        rw [hnil] at hl
        exact hne (List.length_eq_zero.mp hl.symm)
      have hvX : ∀ r ∈ stepLast (resetAll m.rotors), ValidAlpha r.alpha :=
        stepsOnly_valid (stepsOnly_trans (stepsOnly_resetAll m.rotors)
          (stepsOnly_stepLast _)) hv
      have hout : (m.encodeChar c).snd = pyUpper c := by
        rw [encodeChar_letter_eq m c h]
        show applyPlugboard m.plugboard
            (Enigma.signalTravel { m with rotors := stepLast (resetAll m.rotors) }
              (applyPlugboard m.plugboard c)) = pyUpper c
        rw [hap, hap]
        rw [signalTravel_none { m with rotors := stepLast (resetAll m.rotors) } hetw hukw]
        rw [travelLeft_pyUpper _ hneX c]
        exact (travel_left_inv _ hvX (pyUpper c) (isUp_pyUpper_of_letter h)).1
      rw [hout, htail]
    · have hf := bool_eq_false_of_not h
      have hout : (m.encodeChar c).snd = pyUpper c := by
        rw [encodeChar_not_letter m c hf, pyUpper_of_not_letter hf]
      rw [hout, htail]

/-- C10: a machine with at least one rotor, no reflector and no entry wheel
(both catalogs empty, as in the "Commercial" preset) and an empty plugboard
encodes every string to its (ASCII) uppercasing: the left-to-right backward
pass exactly inverts the right-to-left forward pass, for every rotor choice,
every rotor state, and regardless of how many characters were encoded
before. -/
theorem C10_identity_machine (m : Enigma) (s : List Nat)
    (hukw : m.ukw = none) (hetw : m.etw = none)
    (hua : m.ukwAvail = false) (hea : m.etwAvail = false)
    (hpb : m.plugboard = []) (hne : m.rotors ≠ [])
    (hv : ∀ r ∈ m.rotors, ValidAlpha r.alpha) :
    m.encode s = some ((m.encodeChars s).fst, s.map pyUpper) := by
  have h1 : m.rotors.isEmpty = false := by
    cases hc : m.rotors.isEmpty
    · rfl
    · exact absurd (List.length_eq_zero.mp (List.isEmpty_iff_length_eq_zero.mp hc)) hne
  have hok : m.encodeOk = true := by
    unfold Enigma.encodeOk
    rw [hua, hea, h1]
    rfl
  rw [encode_eq_of_ok hok, encodeChars_id_machine s m hukw hetw hpb hne hv]

/-- Closed instantiation of `C10_identity_machine`: the "Commercial" machine
maps "Hello, World!" to "HELLO, WORLD!". -/
theorem C10_identity_machine_witness :
    machCommercial.encode (codes "Hello, World!")
      = some ((machCommercial.encodeChars (codes "Hello, World!")).fst,
          (codes "Hello, World!").map pyUpper) :=
  C10_identity_machine machCommercial (codes "Hello, World!") rfl rfl rfl rfl rfl
    (by decide) (by decide)
